import Mathlib

/-!
Verification development for the toshi-ethereum-service block monitor
(`toshieth/monitor.py`).  The definitions below are a shallow embedding of
the monitor: the persistent tables become lists of rows, the dispatch bus
becomes a list of emitted messages, the Ethereum node becomes a function
from requests to results, and each asynchronous loop body becomes a pure
function from state (plus node responses) to state.
-/

namespace ToshiEth

/-! ## String and hex helpers

Python string slicing `data[a:b]`, `data[-n:]`, `str.startswith`,
`int(s, 16)` and `hex(n)` as used by `monitor.py`. -/

/-- Python `s[a:b]` on a string. -/
def strSlice (s : String) (a b : Nat) : String :=
  String.mk ((s.toList.drop a).take (b - a))

/-- Python `s[-n:]` on a string (for `n` no larger than the length this is
the last `n` characters; for a shorter string it is the whole string,
matching Python's negative-slice clamping because `Nat` subtraction
truncates at zero). -/
def strTakeLast (s : String) (n : Nat) : String :=
  String.mk (s.toList.drop (s.toList.length - n))

/-- Python `s.startswith(p)`. -/
def strStartsWith (s p : String) : Bool :=
  decide (s.toList.take p.toList.length = p.toList)

/-- Value of one hexadecimal digit. -/
def hexDigitVal (c : Char) : Nat :=
  if '0' ≤ c ∧ c ≤ '9' then c.toNat - 48
  else if 'a' ≤ c ∧ c ≤ 'f' then c.toNat - 87
  else if 'A' ≤ c ∧ c ≤ 'F' then c.toNat - 55
  else 0

/-- Python `int(s, 16)` on a string of hex digits (no `0x` marker). -/
def hexParse (s : String) : Nat :=
  s.toList.foldl (fun a c => a * 16 + hexDigitVal c) 0

/-- Python `hex(n)` for a non-negative integer: `0x` followed by lowercase
hex digits, `0x0` for zero. -/
def hexStr (n : Nat) : String :=
  "0x" ++ String.mk (Nat.toDigits 16 n)

/-! ## Constants

Modelled from the spec: `toshieth/constants.py` is not part of the two
source files, but the spec fixes these as the canonical 32-byte topic
hashes and the canonical WETH contract address, hard-coded in lowercase
hex.  Their concrete values are the standard Ethereum ones; no claim
depends on anything beyond the strings being pairwise distinct. -/

def TRANSFER_TOPIC : String :=
  "0xddf252ad1be2c89b69c2b068fc378daa952ba7f163c4a11628f55a4df523b3ef"

def DEPOSIT_TOPIC : String :=
  "0xe1fffcc4923d04b559f4d29a8bfc6cda04eb5b0d3c460751c2402c5c5cc9109c"

def WITHDRAWAL_TOPIC : String :=
  "0x7fcf532c15f0a6db0bd6d0e038bea71d30d808c7d98cb3bf7268a95bf5081b65"

def WETH_CONTRACT_ADDRESS : String :=
  "0xc02aaa39b223fe8d0a0e5c4f27ead9083c756cc2"

def ZERO_ADDRESS : String := "0x0000000000000000000000000000000000000000"

/-- The all-zero logs bloom `"0x" + "0" * 512` that `block_check` compares
against before fetching logs. -/
def ZERO_BLOOM : String := "0x" ++ String.mk (List.replicate 512 '0')

/-! ## Data model

Rows of the tables of §3 of the spec, as read and written by
`monitor.py`. -/

/-- One row of the `blocks` table. -/
structure BlockRow where
  blocknumber : Nat
  hash : String
  parent_hash : String
  timestamp : Nat
  stale : Bool
deriving DecidableEq

/-- One row of the `transactions` table.  `transaction_id` is the
surrogate key; `blocknumber` is null while unconfirmed; `v` is null for
externally observed transactions. -/
structure TxRow where
  transaction_id : Nat
  hash : String
  from_address : String
  to_address : String
  nonce : Nat
  value : String
  gas : String
  gas_price : String
  data : String
  blocknumber : Option Nat
  status : String
  v : Option Nat
deriving DecidableEq

/-- Modelled from the spec: the `transactions` schema (a migration file,
out of scope) gives newly inserted rows — whose `INSERT` in
`process_transaction` lists no `status` column — the initial member
`new` of the status enum `{new, unconfirmed, confirmed, error}`. -/
def DEFAULT_TX_STATUS : String := "new"

/-- One row of the `token_transactions` table, keyed by
`(transaction_id, transaction_log_index)`. -/
structure TokenTxRow where
  transaction_id : Nat
  transaction_log_index : Nat
  contract_address : String
  from_address : String
  to_address : String
  value : String
  status : String
deriving DecidableEq

/-- One row of the `tokens` registry. -/
structure TokenRow where
  contract_address : String
  ready : Bool
  custom : Bool
deriving DecidableEq

/-- One row of the `filter_registrations` table. -/
structure FilterRegRow where
  filter_id : String
  contract_address : String
  topic_id : String
  topic : String
deriving DecidableEq

/-- A message on the asynchronous dispatch bus (§6 of the spec).  The
dispatchers themselves are external collaborators; the monitor only emits
these. -/
inductive Message where
  | update_default_gas_price (blocknumber : Nat)
  | update_transaction (transaction_id : Nat) (status : String)
  | update_token_cache (contract_address : String) (addresses : List String)
  | send_filter_notification (filter_id : String) (topic : String) (data : String)
  | notify_new_block (blocknumber : Nat)
deriving DecidableEq

/-- A log object returned by `eth_getLogs`.  `transactionLogIndex` stands
for the value computed by the `get_transaction_log_index` helper of
`toshieth/utils.py`; modelled from the spec: that helper (not among the
source files) returns the canonical per-transaction log index of the
log, which we carry as a field of the log object. -/
structure NodeLog where
  address : String
  topics : List String
  data : String
  transactionHash : String
  transactionLogIndex : Nat
deriving DecidableEq

/-- A transaction object from the node.  Numeric fields that
`monitor.py` funnels through `parse_int` (`nonce`, `value`, `gas`,
`gasPrice`) are carried already parsed; `toAddr` is null for contract
creation; `logs` is the (possibly empty) list of logs attached by
`block_check`, absent (empty) for pending transactions. -/
structure NodeTx where
  hash : String
  fromAddr : String
  toAddr : Option String
  nonce : Nat
  value : Nat
  gas : Nat
  gasPrice : Nat
  input : String
  blockNumber : Option Nat
  logs : List NodeLog
deriving DecidableEq

/-- A block object from `eth_getBlockByNumber`. -/
structure NodeBlock where
  number : Nat
  hash : String
  parentHash : String
  timestamp : Nat
  logsBloom : String
  transactions : List NodeTx
deriving DecidableEq

/-- Result of a JSON-RPC call: either one of the transient errors in
`JSONRPC_ERRORS` or a value. -/
inductive RpcResult (α : Type) where
  | err : RpcResult α
  | ok : α → RpcResult α
deriving DecidableEq

/-- The Ethereum node as seen through the two JSON-RPC clients.
`bulkBlock` is the pipelined `eth_getBlockByNumber` used by
`handle_reorg` (its results are consumed only for hash comparison). -/
structure Node where
  getBlock : Nat → RpcResult (Option NodeBlock)
  bulkBlock : Nat → Option NodeBlock
  getLogs : Nat → RpcResult (List NodeLog)
  getTx : String → RpcResult (Option NodeTx)

/-- The tables `process_transaction` reads but never writes. -/
structure RegDb where
  notification_registrations : List String
  token_registrations : List String
  tokens : List TokenRow
deriving DecidableEq

/-- The tables `process_transaction` writes, plus the surrogate-key
counter backing `RETURNING transaction_id`. -/
structure TxDb where
  transactions : List TxRow
  token_transactions : List TokenTxRow
  next_transaction_id : Nat
deriving DecidableEq

/-- One extracted ERC-20/WETH transfer: the tuple
`(contract, log_index, from, to, value_hex, status)` built by
`process_transaction`. -/
structure Transfer where
  contract : String
  logIndex : Nat
  src : String
  dst : String
  valueHex : String
  status : String
deriving DecidableEq

/-! ## Transaction classifier: token-transfer extraction -/

/-- The pending-branch input sniffing of `process_transaction`
(`monitor.py` lines 519-538): guess token transfers from `tx.input` when
the transaction is pending and has no prior database record.
`to_address` is the null-normalized `to`; `tx.toAddr` is the raw one
(the WETH deposit check compares the raw value). -/
def sniffInput (tx : NodeTx) (to_address from_address : String) : List Transfer :=
  if tx.input ≠ "" then
    let data := tx.input
    if (strStartsWith data "0xa9059cbb" ∧ data.length = 138) ∨
       (strStartsWith data "0x23b872dd" ∧ data.length = 202) then
      let token_value := hexStr (hexParse (strTakeLast data 64))
      if strStartsWith data "0x23b872dd" then
        [⟨to_address, 0, "0x" ++ strSlice data 34 74, "0x" ++ strSlice data 98 138,
          token_value, "unconfirmed"⟩]
      else
        [⟨to_address, 0, from_address, "0x" ++ strSlice data 34 74,
          token_value, "unconfirmed"⟩]
    else if data = "0xd0e30db0" ∧ tx.toAddr = some WETH_CONTRACT_ADDRESS then
      [⟨WETH_CONTRACT_ADDRESS, 0, ZERO_ADDRESS, tx.fromAddr, hexStr tx.value,
        "unconfirmed"⟩]
    else if strStartsWith data "0x2e1a7d4d" ∧ data.length = 74 then
      [⟨WETH_CONTRACT_ADDRESS, 0, tx.fromAddr, ZERO_ADDRESS,
        hexStr (hexParse (strTakeLast data 64)), "unconfirmed"⟩]
    else []
  else []

/-- ABI decode of a 32-byte word (64 hex chars after `0x`) as an address:
`decode_single(('address', '', []), data_decoder(w))` keeps the low 20
bytes. -/
def decodeAddress (w : String) : String :=
  "0x" ++ strSlice w 26 66

/-- ABI decode of `0x`-prefixed data as a single `uint256`:
`decode_abi(['uint256'], data_decoder(d))[0]`. -/
def decodeUint (d : String) : Nat :=
  hexParse (String.mk (d.toList.drop 2))

/-- The confirmed-branch token-transfer extraction of
`process_transaction` (`monitor.py` lines 469-517): walk the attached
logs collecting ERC-20 `Transfer` events for known tokens and WETH
`Deposit`/`Withdrawal` events, keeping only those with a registered
endpoint. -/
def extractConfirmedTransfers (regs : RegDb) (tx : NodeTx) : List Transfer :=
  tx.logs.foldl (fun acc lg =>
    if lg.topics ≠ [] then
      if lg.topics.headD "" = TRANSFER_TOPIC then
        if (regs.tokens.filter (fun t => decide (t.contract_address = lg.address))) ≠ [] then
          if lg.topics.length = 3 ∧ lg.data.length = 66 then
            let f := decodeAddress (lg.topics.getD 1 "")
            let t := decodeAddress (lg.topics.getD 2 "")
            let v := decodeUint lg.data
            if regs.token_registrations.contains f ∨ regs.token_registrations.contains t then
              acc ++ [⟨lg.address, lg.transactionLogIndex, f, t, hexStr v, "confirmed"⟩]
            else acc
          else if lg.topics.length = 1 ∧ lg.data.length = 194 then
            let f := "0x" ++ strSlice lg.data 26 66
            let t := "0x" ++ strSlice lg.data 90 130
            let v := hexParse (strSlice lg.data 130 194)
            if regs.token_registrations.contains f ∨ regs.token_registrations.contains t then
              acc ++ [⟨lg.address, lg.transactionLogIndex, f, t, hexStr v, "confirmed"⟩]
            else acc
          else acc
        else acc
      else if (lg.topics.headD "" = DEPOSIT_TOPIC ∨ lg.topics.headD "" = WITHDRAWAL_TOPIC) ∧
              lg.address = WETH_CONTRACT_ADDRESS then
        let ethAddr := decodeAddress (lg.topics.getD 1 "")
        if regs.token_registrations.contains ethAddr then
          let v := decodeUint lg.data
          if lg.topics.headD "" = DEPOSIT_TOPIC then
            acc ++ [⟨WETH_CONTRACT_ADDRESS, lg.transactionLogIndex, ZERO_ADDRESS, ethAddr,
                     hexStr v, "confirmed"⟩]
          else
            acc ++ [⟨WETH_CONTRACT_ADDRESS, lg.transactionLogIndex, ethAddr, ZERO_ADDRESS,
                     hexStr v, "confirmed"⟩]
        else acc
      else acc
    else acc) []

/-! ## Transaction classifier: correlation, overwrite, persistence -/

/-- The correlation step of `process_transaction` (`monitor.py` lines
411-433): find the prior database record for `(from_address, nonce)`.
With more than one candidate, prefer a non-error row with the same hash
(`fetchrow` takes the first), else the unique non-error row with a
different hash, else give up (logging a warning). -/
def correlateTx (txs : List TxRow) (from_address : String) (nonce : Nat)
    (hash : String) : Option TxRow :=
  let db_txs := txs.filter (fun r =>
    decide (r.from_address = from_address ∧ r.nonce = nonce))
  if 1 < db_txs.length then
    match (txs.filter (fun r =>
        decide (r.from_address = from_address ∧ r.nonce = nonce ∧ r.hash = hash ∧
                (r.status ≠ "error" ∨ r.status = "new")))).head? with
    | some t => some t
    | none =>
      let no_error := txs.filter (fun r =>
        decide (r.from_address = from_address ∧ r.nonce = nonce ∧ r.hash ≠ hash ∧
                (r.status ≠ "error" ∨ r.status = "new")))
      if no_error.length = 1 then no_error.head? else none
  else if db_txs.length = 1 then db_txs.head?
  else none

/-- Upsert into `token_transactions` on `(transaction_id,
transaction_log_index)`: the `ON CONFLICT` clause updates `from_address`,
`to_address` and `value` only. -/
def upsertTokenTx (l : List TokenTxRow) (row : TokenTxRow) : List TokenTxRow :=
  if l.any (fun r => decide (r.transaction_id = row.transaction_id ∧
      r.transaction_log_index = row.transaction_log_index)) then
    l.map (fun r =>
      if r.transaction_id = row.transaction_id ∧
         r.transaction_log_index = row.transaction_log_index then
        { r with from_address := row.from_address, to_address := row.to_address,
                 value := row.value }
      else r)
  else l ++ [row]

/-- The per-transfer persistence loop of `process_transaction`
(`monitor.py` lines 577-594): re-check endpoint interest for each
extracted transfer and upsert it into `token_transactions`.  Only the
`token_transactions` component of the store changes. -/
def insertTokenTxs (regs : RegDb) (txdb : TxDb) (tid : Nat)
    (transfers : List Transfer) : TxDb :=
  { txdb with token_transactions := transfers.foldl (fun acc tr =>
      if regs.notification_registrations.contains tr.dst ∨
         regs.notification_registrations.contains tr.src ∨
         regs.token_registrations.contains tr.dst ∨
         regs.token_registrations.contains tr.src then
        upsertTokenTx acc ⟨tid, tr.logIndex, tr.contract, tr.src, tr.dst,
                           tr.valueHex, tr.status⟩
      else acc) txdb.token_transactions }

/-- The tail of `process_transaction` after the reorg fast-path
(`monitor.py` lines 467-599): extract token transfers, test interest,
persist the transaction row if new, persist interesting transfers, and
emit the final `update_transaction` message. -/
def processTxMain (regs : RegDb) (txdb : TxDb) (tx : NodeTx) (db_tx : Option TxRow)
    (msgs1 : List Message) (to_address from_address : String) :
    TxDb × List Message × Option Nat :=
  let transfers :=
    if tx.blockNumber.isSome ∧ tx.logs ≠ [] then extractConfirmedTransfers regs tx
    else if tx.blockNumber = none ∧ db_tx = none then
      sniffInput tx to_address from_address
    else []
  let base_interesting :=
    match db_tx with
    | some _ => true
    | none => regs.notification_registrations.contains to_address ||
              regs.notification_registrations.contains from_address
  let is_interesting := base_interesting || transfers.any (fun tr =>
    regs.notification_registrations.contains tr.dst ||
    regs.notification_registrations.contains tr.src ||
    regs.token_registrations.contains tr.dst ||
    regs.token_registrations.contains tr.src)
  if is_interesting then
    let (txdb1, theId) :=
      match db_tx with
      | some t => (txdb, t.transaction_id)
      | none =>
        ({ txdb with
            transactions := txdb.transactions ++
              [{ transaction_id := txdb.next_transaction_id, hash := tx.hash,
                 from_address := from_address, to_address := to_address,
                 nonce := tx.nonce, value := hexStr tx.value, gas := hexStr tx.gas,
                 gas_price := hexStr tx.gasPrice, data := tx.input,
                 blocknumber := none, status := DEFAULT_TX_STATUS, v := none }],
            next_transaction_id := txdb.next_transaction_id + 1 },
         txdb.next_transaction_id)
    let txdb2 := insertTokenTxs regs txdb1 theId transfers
    (txdb2,
     msgs1 ++ [Message.update_transaction theId
       (if tx.blockNumber.isSome then "confirmed" else "unconfirmed")],
     some theId)
  else (txdb, msgs1, none)

/-- `process_transaction` (`monitor.py` lines 401-599): correlate the
observed transaction with a prior record by `(from, nonce)`, detect an
overwritten nonce (emitting `update_transaction(old, 'error')`), take the
reorg fast-path for already-confirmed rows, then extract transfers,
filter by interest, persist, and emit the final status message.  Returns
the written store, the emitted messages in order, and the returned
`transaction_id`. -/
def processTx (regs : RegDb) (txdb : TxDb) (tx : NodeTx) (is_reorg : Bool) :
    TxDb × List Message × Option Nat :=
  let to_address := tx.toAddr.getD "0x"
  let from_address := tx.fromAddr
  let db_tx0 := correlateTx txdb.transactions from_address tx.nonce tx.hash
  let ow : Option TxRow × List Message :=
    match db_tx0 with
    | some t =>
      if t.hash ≠ tx.hash ∧ t.status ≠ "error" then
        (none, [Message.update_transaction t.transaction_id "error"])
      else (some t, [])
    | none => (none, [])
  let db_tx := ow.1
  let msgs1 := ow.2
  match db_tx with
  | some t =>
    if is_reorg ∧ t.hash = tx.hash ∧ t.status = "confirmed" then
      match tx.blockNumber with
      | none => (txdb, msgs1, some t.transaction_id)
      | some bn =>
        if some bn ≠ t.blocknumber then
          ({ txdb with transactions := txdb.transactions.map (fun r =>
              if r.transaction_id = t.transaction_id then
                { r with blocknumber := some bn }
              else r) },
           msgs1, some t.transaction_id)
        else (txdb, msgs1, some t.transaction_id)
    else processTxMain regs txdb tx db_tx msgs1 to_address from_address
  | none => processTxMain regs txdb tx db_tx msgs1 to_address from_address

/-! ## Pending-transaction processor -/

/-- State threaded through one run of `process_unconfirmed_transactions`:
the redis hash `toshieth.monitor:unconfirmed_txs` as an association list
`hash → first_seen`, the transaction store, and the messages emitted so
far. -/
structure PendingState where
  pending : List (String × Nat)
  txdb : TxDb
  msgs : List Message
deriving DecidableEq

/-- Python `if x.is_none then none else ...`: collapse a transient RPC
error from `eth_getTransactionByHash` to `tx = None`, exactly as the
`except JSONRPC_ERRORS` handler does (`monitor.py` lines 374-378). -/
def rpcToOption {α : Type} (r : RpcResult (Option α)) : Option α :=
  match r with
  | RpcResult.err => none
  | RpcResult.ok o => o

/-- One loop-body execution of `process_unconfirmed_transactions`
(`monitor.py` lines 372-394) for the snapshot entry
`(tx_hash, created)`: look the hash up on the node (errors count as a
null result); on null evict the entry only once it is 60 seconds old; on
a hit evict it and, unless the node already reports a containing block,
classify it with `is_reorg = false`. -/
def processUnconfirmedStep (regs : RegDb) (node : Node) (now : Nat)
    (s : PendingState) (entry : String × Nat) : PendingState :=
  match rpcToOption (node.getTx entry.1) with
  | none =>
    if 60 ≤ now - entry.2 then
      { s with pending := s.pending.filter (fun e => decide (e.1 ≠ entry.1)) }
    else s
  | some tx =>
    if tx.blockNumber.isSome then
      { s with pending := s.pending.filter (fun e => decide (e.1 ≠ entry.1)) }
    else
      { pending := s.pending.filter (fun e => decide (e.1 ≠ entry.1)),
        txdb := (processTx regs s.txdb tx false).1,
        msgs := s.msgs ++ (processTx regs s.txdb tx false).2.1 }

/-- `process_unconfirmed_transactions` without a shutdown request: fold
the loop body over the `hgetall` snapshot of the pending map. -/
def processUnconfirmedTransactions (regs : RegDb) (node : Node) (now : Nat)
    (s : PendingState) : PendingState :=
  s.pending.foldl (processUnconfirmedStep regs node now) s

/-! ## Filter-poll loop: token-readiness reconciliation -/

/-- The token-reconciliation phase at the top of `filter_poll`
(`monitor.py` lines 289-316): page through `token_registrations` in
chunks of 1000 (`range(0, total, limit)`), emitting one
`update_token_cache` message per non-ready non-custom token per page,
then mark those tokens ready.  Returns the updated `tokens` table and
the emitted messages. -/
def filterPollTokens (tokens : List TokenRow) (token_registrations : List String) :
    List TokenRow × List Message :=
  let rows := tokens.filter (fun t => decide (t.ready = false ∧ t.custom = false))
  let total := if 0 < rows.length then token_registrations.length else 0
  if 0 < rows.length then
    let offsets := (List.range ((total + 999) / 1000)).map (· * 1000)
    let msgs := offsets.foldl (fun acc off =>
      let registrations := (token_registrations.drop off).take 1000
      acc ++ rows.map (fun r =>
        Message.update_token_cache r.contract_address registrations)) []
    let tokens1 := tokens.map (fun t =>
      if t.contract_address ∈ rows.map (fun r => r.contract_address) then
        { t with ready := true }
      else t)
    (tokens1, msgs)
  else (tokens, [])

/-! ## Block store -/

/-- The persistent store plus the in-memory high-water mark of the
monitor.  `last_blocknumber` is the scalar of the `last_blocknumber`
table; `last_block_number` is the in-memory `self.last_block_number`
cache.  `collectibles` carries each collectibles row's `last_block`
signed value (the reorg handler can write `fork − 1 = −1`). -/
structure MonState where
  blocks : List BlockRow
  last_blocknumber : Nat
  txdb : TxDb
  regs : RegDb
  filter_registrations : List FilterRegRow
  collectibles : List Int
  last_block_number : Nat
deriving DecidableEq

/-- `SELECT * FROM blocks WHERE blocknumber = $1` (first row). -/
def findBlock (blocks : List BlockRow) (n : Nat) : Option BlockRow :=
  (blocks.filter (fun r => decide (r.blocknumber = n))).head?

/-- `SELECT blocknumber FROM blocks WHERE blocknumber < $1 ORDER BY
blocknumber DESC LIMIT 1`. -/
def highestBlockBelow (blocks : List BlockRow) (n : Nat) : Option Nat :=
  (blocks.filter (fun r => decide (r.blocknumber < n))).foldl
    (fun acc r =>
      match acc with
      | none => some r.blocknumber
      | some m => if m < r.blocknumber then some r.blocknumber else some m)
    none

/-- The `INSERT ... ON CONFLICT (blocknumber) DO UPDATE` of `block_check`
(`monitor.py` lines 266-272): update `timestamp`, `hash`, `parent_hash`
and clear `stale` on conflict, else append the new row. -/
def upsertBlock (blocks : List BlockRow) (n : Nat) (ts : Nat) (h p : String) :
    List BlockRow :=
  if blocks.any (fun r => decide (r.blocknumber = n)) then
    blocks.map (fun r =>
      if r.blocknumber = n then
        { r with timestamp := ts, hash := h, parent_hash := p, stale := false }
      else r)
  else blocks ++ [⟨n, h, p, ts, false⟩]

/-- `UPDATE blocks SET stale = TRUE WHERE blocknumber > $1`. -/
def markStaleAbove (blocks : List BlockRow) (n : Nat) : List BlockRow :=
  blocks.map (fun r => if n < r.blocknumber then { r with stale := true } else r)

/-! ## Reorg handler -/

/-- Insert into a list kept sorted by descending block number. -/
def insertDesc (r : BlockRow) : List BlockRow → List BlockRow
  | [] => [r]
  | x :: xs =>
    if x.blocknumber ≤ r.blocknumber then r :: x :: xs else x :: insertDesc r xs

/-- Sort block rows by descending block number (the `ORDER BY blocknumber
DESC` of the reorg handler's store fetch). -/
def sortDesc (l : List BlockRow) : List BlockRow :=
  l.foldr insertDesc []

/-- The inner `while db_results` loop of `handle_reorg` (`monitor.py`
lines 619-626): drop store rows whose number does not match the node
block's (logging out-of-order errors), keeping Python's last-examined
`db_block` binding when the list runs out. -/
def dropNonMatching (n : Nat) : List BlockRow → Option BlockRow × List BlockRow
  | [] => (none, [])
  | d :: rest =>
    if d.blocknumber = n then (some d, d :: rest)
    else
      match dropNonMatching n rest with
      | (none, l) => (some d, l)
      | (some x, l) => (some x, l)

/-- The `while node_results` pairwise comparison of `handle_reorg`
(`monitor.py` lines 616-640): walk node blocks against store rows, and
return the store block number at the first hash match (the fork
point). -/
def reorgScanStep : List NodeBlock → List BlockRow → Option Nat
  | [], _ => none
  | nb :: nrest, dbs =>
    match dropNonMatching nb.number dbs with
    | (none, _) => none
    | (some dbb, dbs1) =>
      if nb.hash = dbb.hash then some dbb.blocknumber
      else reorgScanStep nrest (dbs1.drop 1)

/-- Enough outer iterations of the `handle_reorg` loop for any start:
the walk moves down 10 blocks per iteration and gives up past depth
1000, so 102 iterations are never exhausted before the abort check
fires. -/
def HANDLE_REORG_FUEL : Nat := 102

/-- The fork-point search loop of `handle_reorg` (`monitor.py` lines
607-649): per iteration, bulk-fetch blocks `b, b−1, …, b−9` (skipping
negatives), fetch the ten highest store rows at `≤ b`, scan for a hash
match, and otherwise retreat ten blocks, aborting at the genesis region
or beyond depth 1000 below the high-water mark. -/
def handleReorgLoop (node : Node) (blocks : List BlockRow) (last : Nat) :
    Nat → Nat → Option Nat
  | 0, _ => none
  | fuel + 1, b =>
    match reorgScanStep
        ((List.range 10).filterMap (fun i =>
          if i ≤ b then node.bulkBlock (b - i) else none))
        ((sortDesc (blocks.filter (fun r => decide (r.blocknumber ≤ b)))).take 10) with
    | some f => some f
    | none =>
      if b - 10 = 0 ∨ b - 10 < last - 1000 then none
      else handleReorgLoop node blocks last fuel (b - 10)

/-- `handle_reorg` (`monitor.py` lines 601-664): find the fork point
walking backward from the high-water mark; on success mark every store
block above the fork stale, clamp `collectibles.last_block` to
`fork − 1`, rewind the in-memory high-water mark to the fork, and report
success (`some fork`); on failure leave the state untouched. -/
def handleReorg (st : MonState) (node : Node) : Option Nat × MonState :=
  match handleReorgLoop node st.blocks st.last_block_number HANDLE_REORG_FUEL
      st.last_block_number with
  | none => (none, st)
  | some f =>
    (some f,
     { st with
        blocks := markStaleAbove st.blocks f,
        collectibles := st.collectibles.map (fun c =>
          if (f : Int) - 1 < c then (f : Int) - 1 else c),
        last_block_number := f })

/-! ## Block-check loop -/

/-- How one loop-body execution of `block_check` ended. -/
inductive IterOutcome where
  | rpcBreak
  | noBlock
  | gapRollback (g : Nat)
  | reorgSuccess (f : Nat)
  | logsBreak (reorgFailed : Bool)
  | completed (reorgFailed : Bool)
deriving DecidableEq

/-- Whether the iteration fell through a failed reorg search and kept
ingesting (`monitor.py` lines 208-212). -/
def IterOutcome.failedReorg : IterOutcome → Bool
  | IterOutcome.logsBreak b => b
  | IterOutcome.completed b => b
  | _ => false

/-- The tail of one `block_check` iteration once the fetched block will
be ingested (`monitor.py` lines 214-278): compute the duplicate-block
`is_reorg` flag, fetch logs unless the bloom is all-zero (a transient
`eth_getLogs` error breaks the loop), classify every transaction of the
block with its logs attached, emit registered filter notifications,
conditionally advance both high-water marks, and upsert the block row. -/
def blockCheckRest (st : MonState) (node : Node) (block : NodeBlock)
    (msgs0 : List Message) (reorgFailed : Bool) (now : Nat) :
    MonState × List Message × IterOutcome :=
  let is_reorg := (findBlock st.blocks (st.last_block_number + 1)).isSome
  let logsRes :=
    if block.logsBloom ≠ ZERO_BLOOM then node.getLogs block.number
    else RpcResult.ok []
  match logsRes with
  | RpcResult.err => (st, msgs0, IterOutcome.logsBreak reorgFailed)
  | RpcResult.ok logs_list =>
    let step := fun (acc : TxDb × List Message) (tx : NodeTx) =>
      let txl := { tx with logs := logs_list.filter (fun lg =>
        decide (lg.transactionHash = tx.hash)) }
      let r := processTx st.regs acc.1 txl is_reorg
      (r.1, acc.2 ++ r.2.1)
    let folded := block.transactions.foldl step (st.txdb, msgs0)
    let filterMsgs := logs_list.foldl (fun acc ev =>
      acc ++ ev.topics.foldl (fun acc2 topic =>
        acc2 ++ (st.filter_registrations.filter (fun fr =>
          decide (fr.contract_address = ev.address ∧ fr.topic_id = topic))).map
          (fun fr => Message.send_filter_notification fr.filter_id fr.topic ev.data)) []) []
    let bn := block.number
    let ts := if block.timestamp = 0 then now else block.timestamp
    ({ st with
        txdb := folded.1,
        blocks := upsertBlock st.blocks bn ts block.hash block.parentHash,
        last_blocknumber :=
          if st.last_blocknumber < bn then bn else st.last_blocknumber,
        last_block_number :=
          if st.last_block_number < bn then bn else st.last_block_number },
     folded.2 ++ filterMsgs ++ [Message.notify_new_block bn],
     IterOutcome.completed reorgFailed)

/-- One loop-body execution of `block_check` (`monitor.py` lines
171-282): fetch block `last_block_number + 1` (a transient error or a
null block breaks the loop), emit `update_default_gas_price`, roll back
on a detected gap, run the reorg handler on a parent-hash mismatch
(continuing past a failed search), and otherwise ingest the block. -/
def blockCheckIter (st : MonState) (node : Node) (now : Nat) :
    MonState × List Message × IterOutcome :=
  match node.getBlock (st.last_block_number + 1) with
  | RpcResult.err => (st, [], IterOutcome.rpcBreak)
  | RpcResult.ok none => (st, [], IterOutcome.noBlock)
  | RpcResult.ok (some block) =>
    let msgs0 := [Message.update_default_gas_price (st.last_block_number + 1)]
    match findBlock st.blocks st.last_block_number with
    | none =>
      match highestBlockBelow st.blocks st.last_block_number with
      | some g =>
        if g ≠ 0 then
          ({ st with last_block_number := g }, msgs0, IterOutcome.gapRollback g)
        else blockCheckRest st node block msgs0 false now
      | none => blockCheckRest st node block msgs0 false now
    | some lb =>
      if lb.hash ≠ block.parentHash then
        match handleReorg st node with
        | (some f, st1) => (st1, msgs0, IterOutcome.reorgSuccess f)
        | (none, _) => blockCheckRest st node block msgs0 true now
      else blockCheckRest st node block msgs0 false now

/-! ## Helper lemmas -/

/-- Two prefixes of equal length cannot both start a string unless they
are equal. -/
theorem strStartsWith_conflict (s p q : String)
    (hlen : p.toList.length = q.toList.length) (hpq : p.toList ≠ q.toList)
    (h : strStartsWith s p = true) : strStartsWith s q = false := by
  simp only [strStartsWith, decide_eq_true_eq] at h
  simp only [strStartsWith, decide_eq_false_iff_not]
  rw [hlen] at h
  intro hq
  exact hpq (h.symm.trans hq)

/-! ## Claim C8: pending-branch transferFrom sniffing -/

/-- Claim C8: the pending-branch input sniffing treats a transaction's
input as an ERC-20 `transferFrom` exactly when the input starts with
`0x23b872dd` and is 202 characters long, extracting
`from = input[34:74]`, `to = input[98:138]`, `value = input[-64:]` (the
addresses re-prefixed with `0x`); with that selector and any other
length, in particular any shorter input, no token-transfer entry is
produced. -/
theorem claim_C8 (tx : NodeTx) (to_address from_address : String)
    (h : strStartsWith tx.input "0x23b872dd" = true) :
    sniffInput tx to_address from_address =
      (if tx.input.length = 202 then
        [⟨to_address, 0, "0x" ++ strSlice tx.input 34 74,
          "0x" ++ strSlice tx.input 98 138,
          hexStr (hexParse (strTakeLast tx.input 64)), "unconfirmed"⟩]
      else []) := by
  have hne : tx.input ≠ "" := by
    intro he
    rw [he] at h
    exact absurd h (by decide)
  have ha9 : strStartsWith tx.input "0xa9059cbb" = false :=
    strStartsWith_conflict tx.input "0x23b872dd" "0xa9059cbb" (by decide) (by decide) h
  have h2e : strStartsWith tx.input "0x2e1a7d4d" = false :=
    strStartsWith_conflict tx.input "0x23b872dd" "0x2e1a7d4d" (by decide) (by decide) h
  have hd0 : tx.input ≠ "0xd0e30db0" := by
    intro he
    rw [he] at h
    exact absurd h (by decide)
  by_cases hl : tx.input.length = 202
  · rw [if_pos hl]
    unfold sniffInput
    rw [if_pos hne, if_pos (Or.inr ⟨h, hl⟩), if_pos h]
  · rw [if_neg hl]
    unfold sniffInput
    rw [if_pos hne, if_neg ?_, if_neg ?_, if_neg ?_]
    all_goals simp [ha9, h2e, hd0, hl]

def c8Tx : NodeTx :=
  { hash := "0xh1", fromAddr := "0xsender", toAddr := some "0xtoken", nonce := 7,
    value := 0, gas := 21000, gasPrice := 1,
    input := "0x23b872dd" ++
      "000000000000000000000000" ++ "00000000000000000000000000000000000000aa" ++
      "000000000000000000000000" ++ "00000000000000000000000000000000000000bb" ++
      "000000000000000000000000000000000000000000000000000000000000000" ++ "5",
    blockNumber := none, logs := [] }

/-- Witness for C8 at a concrete 202-character `transferFrom` input. -/
theorem claim_C8_witness :
    strStartsWith c8Tx.input "0x23b872dd" = true ∧
    sniffInput c8Tx "0xtoken" "0xsender" =
      (if c8Tx.input.length = 202 then
        [⟨"0xtoken", 0, "0x" ++ strSlice c8Tx.input 34 74,
          "0x" ++ strSlice c8Tx.input 98 138,
          hexStr (hexParse (strTakeLast c8Tx.input 64)), "unconfirmed"⟩]
      else []) :=
  ⟨by decide, claim_C8 c8Tx "0xtoken" "0xsender" (by decide)⟩

/-! ## Claim C9: token reconciliation with no registrations -/

/-- Claim C9: when the filter-poll loop finds non-ready non-custom
tokens while `token_registrations` is empty, it emits no
`update_token_cache` messages and still marks every such token ready. -/
theorem claim_C9 (tokens : List TokenRow) (regs : List String)
    (hempty : regs = [])
    (hsome : ∃ t ∈ tokens, t.ready = false ∧ t.custom = false) :
    (filterPollTokens tokens regs).2 = [] ∧
    ∀ t ∈ (filterPollTokens tokens regs).1, t.custom = false → t.ready = true := by
  subst hempty
  obtain ⟨t0, ht0, hready, hcustom⟩ := hsome
  have hrows : 0 < (tokens.filter
      (fun t => decide (t.ready = false ∧ t.custom = false))).length := by
    rw [List.length_pos]
    intro hnil
    have : t0 ∈ tokens.filter
        (fun t => decide (t.ready = false ∧ t.custom = false)) :=
      List.mem_filter.2 ⟨ht0, by simp [hready, hcustom]⟩
    rw [hnil] at this
    exact absurd this (List.not_mem_nil t0)
  simp only [filterPollTokens]
  rw [if_pos hrows, if_pos hrows]
  constructor
  · rfl
  · intro t ht hc
    rw [List.mem_map] at ht
    obtain ⟨t1, ht1, heq⟩ := ht
    by_cases hmem : t1.contract_address ∈
        (tokens.filter (fun u => decide (u.ready = false ∧ u.custom = false))).map
          (fun r => r.contract_address)
    · rw [if_pos hmem] at heq
      rw [← heq]
    · rw [if_neg hmem] at heq
      rw [← heq] at hc ⊢
      by_cases hr : t1.ready = true
      · exact hr
      · exfalso
        apply hmem
        rw [List.mem_map]
        refine ⟨t1, List.mem_filter.2 ⟨ht1, ?_⟩, rfl⟩
        simp only [Bool.not_eq_true] at hr
        simp [hr, hc]

def c9Tokens : List TokenRow := [⟨"0xc1", false, false⟩, ⟨"0xc2", false, true⟩]

/-- Witness for C9 at a concrete token table. -/
theorem claim_C9_witness :
    (filterPollTokens c9Tokens []).2 = [] ∧
    ∀ t ∈ (filterPollTokens c9Tokens []).1, t.custom = false → t.ready = true :=
  claim_C9 c9Tokens [] rfl ⟨⟨"0xc1", false, false⟩, by decide, rfl, rfl⟩

/-! ## Lemmas about the pending-transaction processor -/

/-- One step of the pending processor never adds entries to the pending
map. -/
theorem step_pending_subset (regs : RegDb) (node : Node) (now : Nat)
    (s : PendingState) (x e : String × Nat)
    (hm : e ∈ (processUnconfirmedStep regs node now s x).pending) :
    e ∈ s.pending := by
  unfold processUnconfirmedStep at hm
  cases hx : rpcToOption (node.getTx x.1) with
  | none =>
    rw [hx] at hm
    by_cases ha : 60 ≤ now - x.2
    · rw [if_pos ha] at hm
      exact (List.mem_filter.1 hm).1
    · rw [if_neg ha] at hm
      exact hm
  | some tx =>
    rw [hx] at hm
    simp only [] at hm
    by_cases hb : tx.blockNumber.isSome = true
    · rw [if_pos hb] at hm
      exact (List.mem_filter.1 hm).1
    · rw [if_neg hb] at hm
      exact (List.mem_filter.1 hm).1

/-- A whole run of the pending processor never adds entries. -/
theorem run_pending_subset (regs : RegDb) (node : Node) (now : Nat) :
    ∀ (l : List (String × Nat)) (s : PendingState) (e : String × Nat),
      e ∈ (l.foldl (processUnconfirmedStep regs node now) s).pending →
      e ∈ s.pending := by
  intro l
  induction l with
  | nil => intro s e hm; exact hm
  | cons x xs ih =>
    intro s e hm
    rw [List.foldl_cons] at hm
    exact step_pending_subset regs node now s x e (ih _ e hm)

/-- If an entry's hash looks null on the node (a genuine null result or
a transient error) and the entry is 60 seconds old, the full pending run
leaves no entry for that hash. -/
theorem evicted_when_null (regs : RegDb) (node : Node) (now : Nat)
    (s : PendingState) (h : String) (t : Nat)
    (hnull : rpcToOption (node.getTx h) = none)
    (hmem : (h, t) ∈ s.pending) (hage : 60 ≤ now - t) :
    ∀ t', (h, t') ∉ (processUnconfirmedTransactions regs node now s).pending := by
  intro t' hin
  obtain ⟨l1, l2, hsplit⟩ := List.append_of_mem hmem
  unfold processUnconfirmedTransactions at hin
  rw [hsplit, List.foldl_append, List.foldl_cons] at hin
  have hin2 := run_pending_subset regs node now l2 _ _ hin
  revert hin2
  unfold processUnconfirmedStep
  rw [hnull, if_pos hage]
  intro hin2
  have := (List.mem_filter.1 hin2).2
  simp at this

/-- If an entry's hash looks null on the node but the entry is younger
than 60 seconds, and no other snapshot entry reuses its hash, the entry
survives the full pending run untouched. -/
theorem survives_when_young (regs : RegDb) (node : Node) (now : Nat)
    (h : String) (t : Nat) (hnull : rpcToOption (node.getTx h) = none)
    (hage : now - t < 60) :
    ∀ (l : List (String × Nat)) (s : PendingState),
      (∀ e ∈ l, e.1 ≠ h ∨ e = (h, t)) → (h, t) ∈ s.pending →
      (h, t) ∈ (l.foldl (processUnconfirmedStep regs node now) s).pending := by
  intro l
  induction l with
  | nil => intro s _ hmem; exact hmem
  | cons x xs ih =>
    intro s hall hmem
    rw [List.foldl_cons]
    refine ih _ (fun e he => hall e (List.mem_cons_of_mem x he)) ?_
    rcases hall x (List.mem_cons_self x xs) with hk | hx
    · unfold processUnconfirmedStep
      cases hx : rpcToOption (node.getTx x.1) with
      | none =>
        by_cases ha : 60 ≤ now - x.2
        · rw [if_pos ha]
          exact List.mem_filter.2 ⟨hmem, by simpa using Ne.symm hk⟩
        · rw [if_neg ha]
          exact hmem
      | some tx =>
        simp only []
        by_cases hb : tx.blockNumber.isSome = true
        · rw [if_pos hb]
          exact List.mem_filter.2 ⟨hmem, by simpa using Ne.symm hk⟩
        · rw [if_neg hb]
          exact List.mem_filter.2 ⟨hmem, by simpa using Ne.symm hk⟩
    · subst hx
      unfold processUnconfirmedStep
      rw [hnull, if_neg (by omega)]
      exact hmem

/-- In a list with pairwise-distinct keys, an entry is determined by its
key. -/
theorem key_unique {l : List (String × Nat)} {h : String} {t : Nat}
    {e : String × Nat} (hn : (l.map Prod.fst).Nodup)
    (h1 : (h, t) ∈ l) (h2 : e ∈ l) (hk : e.1 = h) : e = (h, t) := by
  induction l with
  | nil => exact absurd h1 (List.not_mem_nil _)
  | cons x xs ih =>
    rw [List.map_cons, List.nodup_cons] at hn
    rcases List.mem_cons.1 h1 with hx1 | hx1
    · rcases List.mem_cons.1 h2 with hx2 | hx2
      · rw [hx2, ← hx1]
      · exfalso
        apply hn.1
        rw [List.mem_map]
        exact ⟨e, hx2, by rw [hk, ← hx1]⟩
    · rcases List.mem_cons.1 h2 with hx2 | hx2
      · exfalso
        apply hn.1
        rw [List.mem_map]
        refine ⟨(h, t), hx1, ?_⟩
        rw [← hx2]
        exact hk.symm
      · exact ih hn.2 hx1 hx2

/-! ## Claim C7: pending-entry handling of a null lookup -/

/-- Claim C7: when the pending-tx processor looks a hash up and the node
returns null, an entry at least 60 seconds old is removed from the
pending map by the run, a younger entry is left in place, and in either
case processing that entry writes no transaction rows and emits no
dispatch messages. -/
theorem claim_C7 (regs : RegDb) (node : Node) (now : Nat) (s : PendingState)
    (h : String) (t : Nat)
    (hnode : node.getTx h = RpcResult.ok none)
    (hmem : (h, t) ∈ s.pending)
    (hnodup : (s.pending.map Prod.fst).Nodup) :
    (60 ≤ now - t →
      ∀ t', (h, t') ∉ (processUnconfirmedTransactions regs node now s).pending) ∧
    (now - t < 60 →
      (h, t) ∈ (processUnconfirmedTransactions regs node now s).pending) ∧
    (∀ s1 : PendingState,
      (processUnconfirmedStep regs node now s1 (h, t)).txdb = s1.txdb ∧
      (processUnconfirmedStep regs node now s1 (h, t)).msgs = s1.msgs) := by
  have hnull : rpcToOption (node.getTx h) = none := by rw [hnode]; rfl
  refine ⟨?_, ?_, ?_⟩
  · intro hage
    exact evicted_when_null regs node now s h t hnull hmem hage
  · intro hage
    unfold processUnconfirmedTransactions
    refine survives_when_young regs node now h t hnull hage s.pending s ?_ hmem
    intro e he
    by_cases hk : e.1 = h
    · exact Or.inr (key_unique hnodup hmem he hk)
    · exact Or.inl hk
  · intro s1
    unfold processUnconfirmedStep
    rw [hnull]
    by_cases ha : 60 ≤ now - t
    · rw [if_pos ha]
      exact ⟨rfl, rfl⟩
    · rw [if_neg ha]
      exact ⟨rfl, rfl⟩

def c7Node : Node :=
  { getBlock := fun _ => RpcResult.ok none,
    bulkBlock := fun _ => none,
    getLogs := fun _ => RpcResult.ok [],
    getTx := fun _ => RpcResult.ok none }

def c7State : PendingState :=
  { pending := [("0xdead", 10)], txdb := ⟨[], [], 1⟩, msgs := [] }

/-- Witness for C7: a 70-second-old entry whose hash the node does not
know. -/
theorem claim_C7_witness :
    (60 ≤ (80 : Nat) - 10 →
      ∀ t', ("0xdead", t') ∉
        (processUnconfirmedTransactions ⟨[], [], []⟩ c7Node 80 c7State).pending) ∧
    ((80 : Nat) - 10 < 60 →
      ("0xdead", 10) ∈
        (processUnconfirmedTransactions ⟨[], [], []⟩ c7Node 80 c7State).pending) ∧
    (∀ s1 : PendingState,
      (processUnconfirmedStep ⟨[], [], []⟩ c7Node 80 s1 ("0xdead", 10)).txdb = s1.txdb ∧
      (processUnconfirmedStep ⟨[], [], []⟩ c7Node 80 s1 ("0xdead", 10)).msgs = s1.msgs) :=
  claim_C7 ⟨[], [], []⟩ c7Node 80 c7State "0xdead" 10 rfl (by decide) (by decide)

/-! ## Claim C10: transient lookup errors behave like null results -/

/-- Replace a node's answer for one transaction hash by a null result. -/
def nullAt (node : Node) (h : String) : Node :=
  { node with getTx := fun x => if x = h then RpcResult.ok none else node.getTx x }

/-- Claim C10: a transient RPC error from `eth_getTransactionByHash` is
handled exactly like a null result — processing the entry is identical
to processing it against a node that returns null for that hash, and an
entry at least 60 seconds old is evicted even though the node was never
successfully queried for it. -/
theorem claim_C10 (regs : RegDb) (node : Node) (now : Nat) (s : PendingState)
    (h : String) (t : Nat)
    (herr : node.getTx h = RpcResult.err)
    (hmem : (h, t) ∈ s.pending)
    (hage : 60 ≤ now - t) :
    (∀ s1 : PendingState,
      processUnconfirmedStep regs node now s1 (h, t) =
      processUnconfirmedStep regs (nullAt node h) now s1 (h, t)) ∧
    (∀ t', (h, t') ∉ (processUnconfirmedTransactions regs node now s).pending) := by
  have hnull : rpcToOption (node.getTx h) = none := by rw [herr]; rfl
  constructor
  · intro s1
    unfold processUnconfirmedStep
    rw [show rpcToOption ((nullAt node h).getTx (h, t).1) = none by
      simp [nullAt, rpcToOption]]
    rw [hnull]
  · exact evicted_when_null regs node now s h t hnull hmem hage

def c10Node : Node :=
  { getBlock := fun _ => RpcResult.ok none,
    bulkBlock := fun _ => none,
    getLogs := fun _ => RpcResult.ok [],
    getTx := fun _ => RpcResult.err }

/-- Witness for C10: a 70-second-old entry whose lookup raises a
transient error. -/
theorem claim_C10_witness :
    (∀ s1 : PendingState,
      processUnconfirmedStep ⟨[], [], []⟩ c10Node 80 s1 ("0xdead", 10) =
      processUnconfirmedStep ⟨[], [], []⟩ (nullAt c10Node "0xdead") 80 s1 ("0xdead", 10)) ∧
    (∀ t', ("0xdead", t') ∉
      (processUnconfirmedTransactions ⟨[], [], []⟩ c10Node 80
        ⟨[("0xdead", 10)], ⟨[], [], 1⟩, []⟩).pending) :=
  claim_C10 ⟨[], [], []⟩ c10Node 80 ⟨[("0xdead", 10)], ⟨[], [], 1⟩, []⟩ "0xdead" 10
    rfl (by decide) (by decide)

/-! ## Lemmas about the reorg handler -/

/-- The inner while loop never invents store rows: the remaining list is
a subset of the input. -/
theorem dropNonMatching_sub (n : Nat) :
    ∀ l : List BlockRow, ∀ x ∈ (dropNonMatching n l).2, x ∈ l := by
  intro l
  induction l with
  | nil => intro x hx; simp [dropNonMatching] at hx
  | cons d rest ih =>
    intro x hx
    unfold dropNonMatching at hx
    by_cases hn : d.blocknumber = n
    · rw [if_pos hn] at hx
      exact hx
    · rw [if_neg hn] at hx
      cases hrec : dropNonMatching n rest with
      | mk o l2 =>
        rw [hrec] at hx
        cases o with
        | none =>
          simp only [] at hx
          refine List.mem_cons_of_mem d (ih x ?_)
          rw [hrec]
          exact hx
        | some y =>
          simp only [] at hx
          refine List.mem_cons_of_mem d (ih x ?_)
          rw [hrec]
          exact hx

/-- The inner while loop's `db_block` result is a row of the input
list. -/
theorem dropNonMatching_fst_mem (n : Nat) :
    ∀ (l : List BlockRow) (d : BlockRow) (l1 : List BlockRow),
      dropNonMatching n l = (some d, l1) → d ∈ l := by
  intro l
  induction l with
  | nil => intro d l1 he; simp [dropNonMatching] at he
  | cons x rest ih =>
    intro d l1 he
    unfold dropNonMatching at he
    by_cases hn : x.blocknumber = n
    · rw [if_pos hn] at he
      injection he with h1 h2
      injection h1 with h1
      rw [← h1]
      exact List.mem_cons_self x rest
    · rw [if_neg hn] at he
      cases hrec : dropNonMatching n rest with
      | mk o l2 =>
        rw [hrec] at he
        cases o with
        | none =>
          simp only [] at he
          injection he with h1 h2
          injection h1 with h1
          rw [← h1]
          exact List.mem_cons_self x rest
        | some y =>
          simp only [] at he
          injection he with h1 h2
          injection h1 with h1
          rw [← h1]
          exact List.mem_cons_of_mem x (ih y l2 hrec)

/-- The fork point returned by the pairwise scan is the block number of
one of the store rows scanned. -/
theorem reorgScanStep_mem :
    ∀ (nbs : List NodeBlock) (dbs : List BlockRow) (f : Nat),
      reorgScanStep nbs dbs = some f → ∃ r ∈ dbs, r.blocknumber = f := by
  intro nbs
  induction nbs with
  | nil => intro dbs f he; simp [reorgScanStep] at he
  | cons nb nrest ih =>
    intro dbs f he
    unfold reorgScanStep at he
    cases hd : dropNonMatching nb.number dbs with
    | mk o dbs1 =>
      rw [hd] at he
      cases o with
      | none =>
        simp only [] at he
        exact Option.noConfusion he
      | some dbb =>
        simp only [] at he
        by_cases hh : nb.hash = dbb.hash
        · rw [if_pos hh] at he
          injection he with he
          exact ⟨dbb, dropNonMatching_fst_mem nb.number dbs dbb dbs1 hd, he⟩
        · rw [if_neg hh] at he
          obtain ⟨r, hr, hrf⟩ := ih (dbs1.drop 1) f he
          exact ⟨r, dropNonMatching_sub nb.number dbs r
            (by rw [hd]; exact List.mem_of_mem_drop hr), hrf⟩

/-- Membership through descending insertion. -/
theorem mem_insertDesc {x r : BlockRow} :
    ∀ {l : List BlockRow}, x ∈ insertDesc r l → x = r ∨ x ∈ l := by
  intro l
  induction l with
  | nil => intro hx; simpa [insertDesc] using hx
  | cons y ys ih =>
    intro hx
    unfold insertDesc at hx
    by_cases hle : y.blocknumber ≤ r.blocknumber
    · rw [if_pos hle] at hx
      rcases List.mem_cons.1 hx with h | h
      · exact Or.inl h
      · exact Or.inr h
    · rw [if_neg hle] at hx
      rcases List.mem_cons.1 hx with h | h
      · exact Or.inr (h ▸ List.mem_cons_self y ys)
      · rcases ih h with h1 | h1
        · exact Or.inl h1
        · exact Or.inr (List.mem_cons_of_mem y h1)

/-- Membership through the descending sort. -/
theorem mem_sortDesc {x : BlockRow} :
    ∀ {l : List BlockRow}, x ∈ sortDesc l → x ∈ l := by
  intro l
  induction l with
  | nil => intro hx; exact hx
  | cons y ys ih =>
    intro hx
    rcases mem_insertDesc hx with h | h
    · exact h ▸ List.mem_cons_self y ys
    · exact List.mem_cons_of_mem y (ih h)

/-- The fork point found by the `handle_reorg` walk never exceeds the
walk's starting block number. -/
theorem handleReorgLoop_le (node : Node) (blocks : List BlockRow) (last : Nat) :
    ∀ (fuel b f : Nat), handleReorgLoop node blocks last fuel b = some f → f ≤ b := by
  intro fuel
  induction fuel with
  | zero => intro b f he; simp [handleReorgLoop] at he
  | succ n ih =>
    intro b f he
    unfold handleReorgLoop at he
    cases hs : reorgScanStep
        ((List.range 10).filterMap (fun i => if i ≤ b then node.bulkBlock (b - i) else none))
        ((sortDesc (blocks.filter (fun r => decide (r.blocknumber ≤ b)))).take 10) with
    | some f0 =>
      rw [hs] at he
      injection he with he
      obtain ⟨r, hr, hrf⟩ := reorgScanStep_mem _ _ _ hs
      have hrb : r ∈ blocks.filter (fun r => decide (r.blocknumber ≤ b)) :=
        mem_sortDesc (List.mem_of_mem_take hr)
      have := (List.mem_filter.1 hrb).2
      rw [← he, ← hrf]
      simpa using this
    | none =>
      rw [hs] at he
      simp only [] at he
      by_cases hab : b - 10 = 0 ∨ b - 10 < last - 1000
      · rw [if_pos hab] at he
        exact Option.noConfusion he
      · rw [if_neg hab] at he
        exact le_trans (ih (b - 10) f he) (Nat.sub_le b 10)

/-- Inversion of a successful `handle_reorg`: the new state is exactly
the stale-marking, collectibles-clamping, high-water rewind at the fork
point, which is at most the previous high-water mark. -/
theorem handleReorg_inv (st : MonState) (node : Node) (f : Nat) (st' : MonState)
    (heq : handleReorg st node = (some f, st')) :
    st' = { st with
             blocks := markStaleAbove st.blocks f,
             collectibles := st.collectibles.map (fun c =>
               if (f : Int) - 1 < c then (f : Int) - 1 else c),
             last_block_number := f } ∧
    f ≤ st.last_block_number := by
  unfold handleReorg at heq
  cases hl : handleReorgLoop node st.blocks st.last_block_number HANDLE_REORG_FUEL
      st.last_block_number with
  | none =>
    rw [hl] at heq
    simp only [] at heq
    have := congrArg Prod.fst heq
    exact absurd this (by simp)
  | some f0 =>
    rw [hl] at heq
    simp only [Prod.mk.injEq] at heq
    obtain ⟨h1, h2⟩ := heq
    injection h1 with h1
    subst h1
    exact ⟨h2.symm, handleReorgLoop_le node st.blocks st.last_block_number _ _ _ hl⟩

/-! ## Claim C5: effect of a successful reorg -/

/-- Claim C5: when the reorg handler finds a fork point `f`, it marks
every stored block row above `f` stale, clamps every collectibles row
above `f − 1` down to `f − 1`, rewinds the high-water mark to `f`
(which is at most its previous value), and reports success. -/
theorem claim_C5 (st : MonState) (node : Node) (f : Nat) (st' : MonState)
    (heq : handleReorg st node = (some f, st')) :
    st'.blocks = markStaleAbove st.blocks f ∧
    (∀ r ∈ st'.blocks, f < r.blocknumber → r.stale = true) ∧
    st'.collectibles = st.collectibles.map (fun c =>
      if (f : Int) - 1 < c then (f : Int) - 1 else c) ∧
    (∀ c ∈ st'.collectibles, c ≤ (f : Int) - 1) ∧
    st'.last_block_number = f ∧
    f ≤ st.last_block_number := by
  obtain ⟨hst, hle⟩ := handleReorg_inv st node f st' heq
  subst hst
  refine ⟨rfl, ?_, rfl, ?_, rfl, hle⟩
  · intro r hr hf
    unfold markStaleAbove at hr
    rw [List.mem_map] at hr
    obtain ⟨r0, _, hr0⟩ := hr
    by_cases hgt : f < r0.blocknumber
    · rw [if_pos hgt] at hr0
      rw [← hr0]
    · rw [if_neg hgt] at hr0
      rw [← hr0] at hf
      exact absurd hf hgt
  · intro c hc
    simp only [List.mem_map] at hc
    obtain ⟨c0, hc0, hceq⟩ := hc
    by_cases hgt : (f : Int) - 1 < c0
    · rw [if_pos hgt] at hceq
      rw [← hceq]
    · rw [if_neg hgt] at hceq
      rw [← hceq]
      exact le_of_not_lt hgt

def c5Row (n : Nat) (h : String) : BlockRow := ⟨n, h, "0xp", 10, false⟩

def c5State : MonState :=
  { blocks := [c5Row 495 "0xs495", c5Row 496 "0xs496", c5Row 497 "0xs497",
               c5Row 498 "0xs498", c5Row 499 "0xs499", c5Row 500 "0xs500"],
    last_blocknumber := 500, txdb := ⟨[], [], 1⟩, regs := ⟨[], [], []⟩,
    filter_registrations := [], collectibles := [(500 : Int), 300],
    last_block_number := 500 }

def c5NodeBlock (n : Nat) (h : String) : NodeBlock :=
  { number := n, hash := h, parentHash := "0xp", timestamp := 1, logsBloom := "0x1",
    transactions := [] }

def c5Node : Node :=
  { getBlock := fun _ => RpcResult.ok none,
    bulkBlock := fun n =>
      if n = 495 then some (c5NodeBlock 495 "0xs495")
      else if 495 < n ∧ n ≤ 500 then some (c5NodeBlock n ("0xn" ++ toString n))
      else some (c5NodeBlock n ("0xo" ++ toString n)),
    getLogs := fun _ => RpcResult.ok [],
    getTx := fun _ => RpcResult.ok none }

def c5Result : MonState := (handleReorg c5State c5Node).2

/-- Witness for C5: the spec's S2 scenario — high-water 500, fork found
at 495; blocks 496-500 become stale, `collectibles.last_block` is
clamped to 494, and the high-water mark becomes 495. -/
theorem claim_C5_witness :
    (c5Result.blocks = markStaleAbove c5State.blocks 495 ∧
     (∀ r ∈ c5Result.blocks, 495 < r.blocknumber → r.stale = true) ∧
     c5Result.collectibles = c5State.collectibles.map (fun c =>
       if (495 : Int) - 1 < c then (495 : Int) - 1 else c) ∧
     (∀ c ∈ c5Result.collectibles, c ≤ (495 : Int) - 1) ∧
     c5Result.last_block_number = 495 ∧
     495 ≤ c5State.last_block_number) ∧
    c5Result.collectibles = [(494 : Int), 300] ∧
    c5Result.last_block_number = 495 :=
  ⟨claim_C5 c5State c5Node 495 c5Result (by decide), by decide, by decide⟩

/-! ## Lemmas about the transaction classifier -/

/-- A row picked by the correlation step lives in the transactions
table. -/
theorem correlateTx_mem (txs : List TxRow) (fa : String) (n : Nat) (h : String)
    (t : TxRow) (hc : correlateTx txs fa n h = some t) : t ∈ txs := by
  unfold correlateTx at hc
  by_cases h1 : 1 < (txs.filter (fun r =>
      decide (r.from_address = fa ∧ r.nonce = n))).length
  · rw [if_pos h1] at hc
    cases hh : (txs.filter (fun r =>
        decide (r.from_address = fa ∧ r.nonce = n ∧ r.hash = h ∧
                (r.status ≠ "error" ∨ r.status = "new")))).head? with
    | some t0 =>
      rw [hh] at hc
      simp only [] at hc
      injection hc with hc
      subst hc
      exact (List.mem_filter.1 (List.mem_of_mem_head? hh)).1
    | none =>
      rw [hh] at hc
      simp only [] at hc
      by_cases h2 : (txs.filter (fun r =>
          decide (r.from_address = fa ∧ r.nonce = n ∧ r.hash ≠ h ∧
                  (r.status ≠ "error" ∨ r.status = "new")))).length = 1
      · rw [if_pos h2] at hc
        exact (List.mem_filter.1 (List.mem_of_mem_head? hc)).1
      · rw [if_neg h2] at hc
        exact Option.noConfusion hc
  · rw [if_neg h1] at hc
    by_cases h2 : (txs.filter (fun r =>
        decide (r.from_address = fa ∧ r.nonce = n))).length = 1
    · rw [if_pos h2] at hc
      exact (List.mem_filter.1 (List.mem_of_mem_head? hc)).1
    · rw [if_neg h2] at hc
      exact Option.noConfusion hc

/-- Shape of the message list produced by the classifier tail: either
nothing is appended to the overwrite messages, or exactly one final
`update_transaction` for the prior row's id (when one exists) or for
the freshly inserted id `next_transaction_id`. -/
theorem processTxMain_msgs (regs : RegDb) (txdb : TxDb) (tx : NodeTx)
    (db_tx : Option TxRow) (msgs1 : List Message) (a b : String) :
    (processTxMain regs txdb tx db_tx msgs1 a b).2.1 = msgs1 ∨
    (∃ t s, db_tx = some t ∧
      (processTxMain regs txdb tx db_tx msgs1 a b).2.1 =
        msgs1 ++ [Message.update_transaction t.transaction_id s]) ∨
    (db_tx = none ∧ ∃ s,
      (processTxMain regs txdb tx db_tx msgs1 a b).2.1 =
        msgs1 ++ [Message.update_transaction txdb.next_transaction_id s]) := by
  cases db_tx with
  | some t =>
    simp only [processTxMain, Bool.true_or]
    right; left
    exact ⟨t, _, by trivial, rfl⟩
  | none =>
    simp only [processTxMain]
    split <;>
      first
        | (left; rfl)
        | (right; right; exact ⟨by trivial, _, rfl⟩)
        | (split <;>
            first
              | (left; rfl)
              | (right; right; exact ⟨by trivial, _, rfl⟩)
              | (split <;>
                  first
                    | (left; rfl)
                    | (right; right; exact ⟨by trivial, _, rfl⟩)))

/-- The ids carried by the `update_transaction` messages of a message
list. -/
def updateTxIds (msgs : List Message) : List Nat :=
  msgs.filterMap (fun m =>
    match m with
    | Message.update_transaction id _ => some id
    | _ => none)

/-! ## Claim C6: one status message per transaction id -/

/-- Claim C6: within a single `process_transaction` invocation, at most
one `update_transaction` message is emitted for any given
`transaction_id` (given the surrogate-key discipline that every stored
id is below the insertion counter). -/
theorem claim_C6 (regs : RegDb) (txdb : TxDb) (tx : NodeTx) (is_reorg : Bool)
    (hbound : ∀ r ∈ txdb.transactions,
      r.transaction_id < txdb.next_transaction_id) :
    (updateTxIds (processTx regs txdb tx is_reorg).2.1).Nodup := by
  unfold processTx
  simp only []
  cases hc : correlateTx txdb.transactions tx.fromAddr tx.nonce tx.hash with
  | none =>
    try rw [hc]
    simp only []
    rcases processTxMain_msgs regs txdb tx none [] (tx.toAddr.getD "0x") tx.fromAddr
      with hm | ⟨t, s, ht, hm⟩ | ⟨_, s, hm⟩
    · rw [hm]
      exact List.nodup_nil
    · exact Option.noConfusion ht
    · rw [hm]
      simp [updateTxIds]
  | some t =>
    try rw [hc]
    simp only []
    by_cases how : t.hash ≠ tx.hash ∧ t.status ≠ "error"
    · rw [if_pos how]
      simp only []
      rcases processTxMain_msgs regs txdb tx none
          [Message.update_transaction t.transaction_id "error"]
          (tx.toAddr.getD "0x") tx.fromAddr
        with hm | ⟨t0, s, ht0, hm⟩ | ⟨_, s, hm⟩
      · rw [hm]
        simp [updateTxIds]
      · exact Option.noConfusion ht0
      · rw [hm]
        have hlt : t.transaction_id < txdb.next_transaction_id :=
          hbound t (correlateTx_mem txdb.transactions tx.fromAddr tx.nonce tx.hash t hc)
        simp [updateTxIds, Nat.ne_of_lt hlt]
    · rw [if_neg how]
      simp only []
      by_cases hre : is_reorg = true ∧ t.hash = tx.hash ∧ t.status = "confirmed"
      · rw [if_pos hre]
        cases tx.blockNumber with
        | none => exact List.nodup_nil
        | some bn =>
          simp only []
          by_cases hbn : some bn ≠ t.blocknumber
          · rw [if_pos hbn]
            exact List.nodup_nil
          · rw [if_neg hbn]
            exact List.nodup_nil
      · rw [if_neg hre]
        rcases processTxMain_msgs regs txdb tx (some t) []
            (tx.toAddr.getD "0x") tx.fromAddr
          with hm | ⟨t0, s, ht0, hm⟩ | ⟨hn, s, hm⟩
        · rw [hm]
          exact List.nodup_nil
        · rw [hm]
          simp [updateTxIds]
        · exact Option.noConfusion hn

/-- Witness for C6: the overwrite scenario, where both an `error` for
the old row and an `unconfirmed` for the new row are emitted, with
distinct ids. -/
theorem claim_C6_witness :
    (updateTxIds (processTx
      ⟨["0xf"], [], []⟩
      ⟨[{ transaction_id := 1, hash := "0xaaa", from_address := "0xf",
          to_address := "0xt", nonce := 7, value := "0x1", gas := "0x5208",
          gas_price := "0x1", data := "0x", blocknumber := none,
          status := "unconfirmed", v := some 27 }], [], 2⟩
      { hash := "0xbbb", fromAddr := "0xf", toAddr := some "0xt", nonce := 7,
        value := 1, gas := 21000, gasPrice := 1, input := "0x",
        blockNumber := none, logs := [] }
      false).2.1).Nodup :=
  claim_C6 ⟨["0xf"], [], []⟩
    ⟨[{ transaction_id := 1, hash := "0xaaa", from_address := "0xf",
        to_address := "0xt", nonce := 7, value := "0x1", gas := "0x5208",
        gas_price := "0x1", data := "0x", blocknumber := none,
        status := "unconfirmed", v := some 27 }], [], 2⟩
    { hash := "0xbbb", fromAddr := "0xf", toAddr := some "0xt", nonce := 7,
      value := 1, gas := 21000, gasPrice := 1, input := "0x",
      blockNumber := none, logs := [] }
    false (by decide)

/-! ## Claim C4: overwritten nonce handling -/

def c4OldRow : TxRow :=
  { transaction_id := 1, hash := "0xaaa", from_address := "0xf",
    to_address := "0xt", nonce := 7, value := "0x1", gas := "0x5208",
    gas_price := "0x1", data := "0x", blocknumber := none,
    status := "unconfirmed", v := some 27 }

def c4Txdb : TxDb := ⟨[c4OldRow], [], 2⟩

def c4Tx : NodeTx :=
  { hash := "0xbbb", fromAddr := "0xf", toAddr := some "0xt", nonce := 7,
    value := 1, gas := 21000, gasPrice := 1, input := "0x",
    blockNumber := none, logs := [] }

/-- Counterexample to C4 as stated: a pending transaction matching
exactly one stored row with a different hash, non-error status and
non-null `v` — but with no registered endpoint.  The classifier emits
`update_transaction(old, 'error')` and then returns at the interest
check: no new row is inserted and no `update_transaction(new_id,
'unconfirmed')` is emitted. -/
theorem claim_C4_counterexample :
    c4Tx.blockNumber = none ∧
    c4Txdb.transactions.filter (fun r =>
      decide (r.from_address = c4Tx.fromAddr ∧ r.nonce = c4Tx.nonce)) = [c4OldRow] ∧
    c4OldRow.hash ≠ c4Tx.hash ∧ c4OldRow.status ≠ "error" ∧ c4OldRow.v ≠ none ∧
    (processTx ⟨[], [], []⟩ c4Txdb c4Tx false).2.1 =
      [Message.update_transaction 1 "error"] ∧
    (processTx ⟨[], [], []⟩ c4Txdb c4Tx false).1.transactions =
      c4Txdb.transactions := by decide

/-- When the `(from, nonce)` filter returns exactly one row, the
correlation step picks it. -/
theorem correlateTx_single (txs : List TxRow) (fa : String) (n : Nat) (h : String)
    (t : TxRow)
    (hone : txs.filter (fun r => decide (r.from_address = fa ∧ r.nonce = n)) = [t]) :
    correlateTx txs fa n h = some t := by
  unfold correlateTx
  rw [hone]
  simp

/-- The classifier tail for a fresh transaction whose ETH endpoints are
registered: insert a row under the next surrogate id and emit the final
status message for it. -/
theorem processTxMain_none_interesting (regs : RegDb) (txdb : TxDb) (tx : NodeTx)
    (msgs1 : List Message) (a b : String)
    (hint : (regs.notification_registrations.contains a ||
             regs.notification_registrations.contains b) = true) :
    (processTxMain regs txdb tx none msgs1 a b).1.transactions =
      txdb.transactions ++
        [{ transaction_id := txdb.next_transaction_id, hash := tx.hash,
           from_address := b, to_address := a, nonce := tx.nonce,
           value := hexStr tx.value, gas := hexStr tx.gas,
           gas_price := hexStr tx.gasPrice, data := tx.input,
           blocknumber := none, status := DEFAULT_TX_STATUS, v := none }] ∧
    (processTxMain regs txdb tx none msgs1 a b).2.1 =
      msgs1 ++ [Message.update_transaction txdb.next_transaction_id
        (if tx.blockNumber.isSome then "confirmed" else "unconfirmed")] ∧
    (processTxMain regs txdb tx none msgs1 a b).2.2 =
      some txdb.next_transaction_id := by
  simp only [processTxMain, hint, Bool.true_or]
  rw [if_pos trivial]
  exact ⟨rfl, rfl, rfl⟩

/-- Claim C4, amended: the overwritten-nonce behaviour holds as claimed
provided the transaction is interesting — here, one of its ETH
endpoints is registered.  The classifier then emits
`update_transaction(old, 'error')`, inserts a row for the new hash
under the next surrogate id, and emits `update_transaction(new_id,
'unconfirmed')`, in that order. -/
theorem claim_C4_amended (regs : RegDb) (txdb : TxDb) (tx : NodeTx) (t : TxRow)
    (hpend : tx.blockNumber = none)
    (hone : txdb.transactions.filter (fun r =>
      decide (r.from_address = tx.fromAddr ∧ r.nonce = tx.nonce)) = [t])
    (hhash : t.hash ≠ tx.hash) (hstat : t.status ≠ "error") (hv : t.v ≠ none)
    (hint : tx.toAddr.getD "0x" ∈ regs.notification_registrations ∨
            tx.fromAddr ∈ regs.notification_registrations) :
    (processTx regs txdb tx false).2.1 =
      [Message.update_transaction t.transaction_id "error",
       Message.update_transaction txdb.next_transaction_id "unconfirmed"] ∧
    (processTx regs txdb tx false).1.transactions =
      txdb.transactions ++
        [{ transaction_id := txdb.next_transaction_id, hash := tx.hash,
           from_address := tx.fromAddr, to_address := tx.toAddr.getD "0x",
           nonce := tx.nonce, value := hexStr tx.value, gas := hexStr tx.gas,
           gas_price := hexStr tx.gasPrice, data := tx.input,
           blocknumber := none, status := DEFAULT_TX_STATUS, v := none }] ∧
    (processTx regs txdb tx false).2.2 = some txdb.next_transaction_id := by
  have hb : (regs.notification_registrations.contains (tx.toAddr.getD "0x") ||
             regs.notification_registrations.contains tx.fromAddr) = true := by
    rcases hint with hm | hm
    · rw [Bool.or_eq_true]
      exact Or.inl (List.elem_iff.2 hm)
    · rw [Bool.or_eq_true]
      exact Or.inr (List.elem_iff.2 hm)
  have hm := processTxMain_none_interesting regs txdb tx
    [Message.update_transaction t.transaction_id "error"]
    (tx.toAddr.getD "0x") tx.fromAddr hb
  unfold processTx
  simp only []
  rw [correlateTx_single txdb.transactions tx.fromAddr tx.nonce tx.hash t hone]
  simp only []
  rw [if_pos ⟨hhash, hstat⟩]
  simp only []
  rw [hpend] at hm
  simp only [Option.isSome_none, Bool.false_eq_true, if_false] at hm
  exact ⟨hm.2.1, hm.1, hm.2.2⟩

/-- Witness for C4 (amended): the spec's S3 scenario with the sender
registered. -/
theorem claim_C4_witness :
    (processTx ⟨["0xf"], [], []⟩ c4Txdb c4Tx false).2.1 =
      [Message.update_transaction 1 "error",
       Message.update_transaction 2 "unconfirmed"] ∧
    (processTx ⟨["0xf"], [], []⟩ c4Txdb c4Tx false).1.transactions =
      c4Txdb.transactions ++
        [{ transaction_id := 2, hash := "0xbbb",
           from_address := "0xf", to_address := "0xt",
           nonce := 7, value := hexStr 1, gas := hexStr 21000,
           gas_price := hexStr 1, data := "0x",
           blocknumber := none, status := DEFAULT_TX_STATUS, v := none }] ∧
    (processTx ⟨["0xf"], [], []⟩ c4Txdb c4Tx false).2.2 = some 2 :=
  claim_C4_amended ⟨["0xf"], [], []⟩ c4Txdb c4Tx c4OldRow rfl (by decide)
    (by decide) (by decide) (by decide) (Or.inr (by decide))

/-! ## Message application and the non-error-row invariant -/

/-- Modelled from the spec: the manager dispatcher (an external
collaborator, §6) applies an `update_transaction(transaction_id,
status)` message by setting that row's `status`; other messages do not
touch the `transactions` table. -/
def applyUpdateMsg (txs : List TxRow) : Message → List TxRow
  | Message.update_transaction id s =>
    txs.map (fun r => if r.transaction_id = id then { r with status := s } else r)
  | _ => txs

/-- Apply a batch of emitted messages to the `transactions` table in
order. -/
def applyUpdates (txs : List TxRow) (msgs : List Message) : List TxRow :=
  msgs.foldl applyUpdateMsg txs

/-- The rows of one `(from_address, nonce)` pair whose status is not
`error`. -/
def nonError (txs : List TxRow) (fa : String) (n : Nat) : List TxRow :=
  txs.filter (fun r =>
    decide (r.from_address = fa ∧ r.nonce = n ∧ r.status ≠ "error"))

/-! ## Generic list lemmas -/

/-- Filtering by a stronger predicate yields at most as many rows. -/
theorem filter_length_mono {α : Type} (p q : α → Bool)
    (h : ∀ a, p a = true → q a = true) :
    ∀ l : List α, (l.filter p).length ≤ (l.filter q).length := by
  intro l
  induction l with
  | nil => simp
  | cons a l ih =>
    by_cases hp : p a = true
    · rw [List.filter_cons_of_pos hp, List.filter_cons_of_pos (h a hp)]
      simpa using ih
    · rw [List.filter_cons_of_neg (by simpa using hp)]
      cases hq : q a
      · rw [List.filter_cons_of_neg (by simp [hq])]
        exact ih
      · rw [List.filter_cons_of_pos hq]
        exact le_trans ih (by simp)

/-- Mapping a function that can only turn the predicate off does not
increase the filtered length. -/
theorem filter_map_length_le {α : Type} (f : α → α) (p : α → Bool) :
    ∀ l : List α, (∀ a ∈ l, p (f a) = true → p a = true) →
      ((l.map f).filter p).length ≤ (l.filter p).length := by
  intro l
  induction l with
  | nil => intro _; simp
  | cons a l ih =>
    intro h
    rw [List.map_cons]
    by_cases hp : p (f a) = true
    · rw [List.filter_cons_of_pos hp,
          List.filter_cons_of_pos (h a (List.mem_cons_self a l) hp)]
      simpa using ih (fun x hx => h x (List.mem_cons_of_mem a hx))
    · rw [List.filter_cons_of_neg (by simpa using hp)]
      refine le_trans (ih (fun x hx => h x (List.mem_cons_of_mem a hx))) ?_
      cases hq : p a
      · rw [List.filter_cons_of_neg (by simp [hq])]
      · rw [List.filter_cons_of_pos hq]
        simp

/-- Mapping a function that preserves the predicate on every member
preserves the filtered length. -/
theorem filter_map_length_eq {α : Type} (f : α → α) (p : α → Bool) :
    ∀ l : List α, (∀ a ∈ l, p (f a) = p a) →
      ((l.map f).filter p).length = (l.filter p).length := by
  intro l
  induction l with
  | nil => intro _; simp
  | cons a l ih =>
    intro h
    rw [List.map_cons]
    have ha := h a (List.mem_cons_self a l)
    have ihl := ih (fun x hx => h x (List.mem_cons_of_mem a hx))
    by_cases hp : p a = true
    · rw [List.filter_cons_of_pos (ha.trans hp), List.filter_cons_of_pos hp]
      simp [ihl]
    · rw [List.filter_cons_of_neg (by simp [ha]; simpa using hp),
          List.filter_cons_of_neg (by simpa using hp)]
      exact ihl

/-- A map that is the identity on every member is the identity. -/
theorem map_id_of_mem {α : Type} (f : α → α) :
    ∀ l : List α, (∀ a ∈ l, f a = a) → l.map f = l := by
  intro l
  induction l with
  | nil => intro _; rfl
  | cons a l ih =>
    intro h
    rw [List.map_cons, h a (List.mem_cons_self a l),
        ih (fun x hx => h x (List.mem_cons_of_mem a hx))]

/-- A list of length at most one containing `a` is `[a]`. -/
theorem eq_singleton_of_length_le_one {α : Type} {l : List α} {a : α}
    (h1 : l.length ≤ 1) (h2 : a ∈ l) : l = [a] := by
  cases l with
  | nil => exact absurd h2 (List.not_mem_nil a)
  | cons x xs =>
    cases xs with
    | nil =>
      rcases List.mem_cons.1 h2 with h | h
      · rw [h]
      · exact absurd h (List.not_mem_nil a)
    | cons y ys => simp at h1

/-! ## Finer lemmas about the correlation step -/

/-- A row picked by the correlation step carries the queried
`(from_address, nonce)` pair. -/
theorem correlateTx_pair (txs : List TxRow) (fa : String) (n : Nat) (h : String)
    (t : TxRow) (hc : correlateTx txs fa n h = some t) :
    t ∈ txs ∧ t.from_address = fa ∧ t.nonce = n := by
  refine ⟨correlateTx_mem txs fa n h t hc, ?_⟩
  unfold correlateTx at hc
  by_cases h1 : 1 < (txs.filter (fun r =>
      decide (r.from_address = fa ∧ r.nonce = n))).length
  · rw [if_pos h1] at hc
    cases hh : (txs.filter (fun r =>
        decide (r.from_address = fa ∧ r.nonce = n ∧ r.hash = h ∧
                (r.status ≠ "error" ∨ r.status = "new")))).head? with
    | some t0 =>
      rw [hh] at hc
      simp only [] at hc
      injection hc with hc
      subst hc
      have := (List.mem_filter.1 (List.mem_of_mem_head? hh)).2
      simp only [decide_eq_true_eq] at this
      exact ⟨this.1, this.2.1⟩
    | none =>
      rw [hh] at hc
      simp only [] at hc
      by_cases h2 : (txs.filter (fun r =>
          decide (r.from_address = fa ∧ r.nonce = n ∧ r.hash ≠ h ∧
                  (r.status ≠ "error" ∨ r.status = "new")))).length = 1
      · rw [if_pos h2] at hc
        have := (List.mem_filter.1 (List.mem_of_mem_head? hc)).2
        simp only [decide_eq_true_eq] at this
        exact ⟨this.1, this.2.1⟩
      · rw [if_neg h2] at hc
        exact Option.noConfusion hc
  · rw [if_neg h1] at hc
    by_cases h2 : (txs.filter (fun r =>
        decide (r.from_address = fa ∧ r.nonce = n))).length = 1
    · rw [if_pos h2] at hc
      have := (List.mem_filter.1 (List.mem_of_mem_head? hc)).2
      simp only [decide_eq_true_eq] at this
      exact this
    · rw [if_neg h2] at hc
      exact Option.noConfusion hc

/-- The correlation step returns a row with status `error` only when
that row is the single `(from, nonce)` candidate. -/
theorem correlateTx_error_single (txs : List TxRow) (fa : String) (n : Nat)
    (h : String) (t : TxRow) (hc : correlateTx txs fa n h = some t)
    (herr : t.status = "error") :
    txs.filter (fun r => decide (r.from_address = fa ∧ r.nonce = n)) = [t] := by
  unfold correlateTx at hc
  by_cases h1 : 1 < (txs.filter (fun r =>
      decide (r.from_address = fa ∧ r.nonce = n))).length
  · exfalso
    rw [if_pos h1] at hc
    cases hh : (txs.filter (fun r =>
        decide (r.from_address = fa ∧ r.nonce = n ∧ r.hash = h ∧
                (r.status ≠ "error" ∨ r.status = "new")))).head? with
    | some t0 =>
      rw [hh] at hc
      simp only [] at hc
      injection hc with hc
      subst hc
      have := (List.mem_filter.1 (List.mem_of_mem_head? hh)).2
      simp only [decide_eq_true_eq] at this
      rcases this.2.2.2 with hx | hx
      · exact hx herr
      · rw [herr] at hx
        exact absurd hx (by decide)
    | none =>
      rw [hh] at hc
      simp only [] at hc
      by_cases h2 : (txs.filter (fun r =>
          decide (r.from_address = fa ∧ r.nonce = n ∧ r.hash ≠ h ∧
                  (r.status ≠ "error" ∨ r.status = "new")))).length = 1
      · rw [if_pos h2] at hc
        have := (List.mem_filter.1 (List.mem_of_mem_head? hc)).2
        simp only [decide_eq_true_eq] at this
        rcases this.2.2.2 with hx | hx
        · exact hx herr
        · rw [herr] at hx
          exact absurd hx (by decide)
      · rw [if_neg h2] at hc
        exact Option.noConfusion hc
  · rw [if_neg h1] at hc
    by_cases h2 : (txs.filter (fun r =>
        decide (r.from_address = fa ∧ r.nonce = n))).length = 1
    · rw [if_pos h2] at hc
      exact eq_singleton_of_length_le_one (le_of_eq h2)
        (List.mem_of_mem_head? hc)
    · rw [if_neg h2] at hc
      exact Option.noConfusion hc

/-- When the correlation step comes back empty and the at-most-one
invariant holds, the `(from, nonce)` pair has no non-error rows at
all. -/
theorem correlateTx_none_nonError (txs : List TxRow) (fa : String) (n : Nat)
    (h : String) (hc : correlateTx txs fa n h = none)
    (hinv : (nonError txs fa n).length ≤ 1) : nonError txs fa n = [] := by
  unfold correlateTx at hc
  by_cases h1 : 1 < (txs.filter (fun r =>
      decide (r.from_address = fa ∧ r.nonce = n))).length
  · rw [if_pos h1] at hc
    cases hh : (txs.filter (fun r =>
        decide (r.from_address = fa ∧ r.nonce = n ∧ r.hash = h ∧
                (r.status ≠ "error" ∨ r.status = "new")))).head? with
    | some t0 =>
      rw [hh] at hc
      simp only [] at hc
      exact Option.noConfusion hc
    | none =>
      rw [hh] at hc
      simp only [] at hc
      have hHM : txs.filter (fun r =>
          decide (r.from_address = fa ∧ r.nonce = n ∧ r.hash = h ∧
                  (r.status ≠ "error" ∨ r.status = "new"))) = [] := by
        rcases List.head?_eq_none_iff.1 hh with he
        exact he
      have hmono : (txs.filter (fun r =>
          decide (r.from_address = fa ∧ r.nonce = n ∧ r.hash ≠ h ∧
                  (r.status ≠ "error" ∨ r.status = "new")))).length ≤
          (nonError txs fa n).length := by
        refine filter_length_mono _ _ ?_ txs
        intro r hr
        simp only [decide_eq_true_eq] at hr ⊢
        refine ⟨hr.1, hr.2.1, ?_⟩
        rcases hr.2.2.2 with hx | hx
        · exact hx
        · rw [hx]
          decide
      by_cases h2 : (txs.filter (fun r =>
          decide (r.from_address = fa ∧ r.nonce = n ∧ r.hash ≠ h ∧
                  (r.status ≠ "error" ∨ r.status = "new")))).length = 1
      · exfalso
        rw [if_pos h2] at hc
        obtain ⟨x, hx⟩ := List.length_eq_one.1 h2
        rw [hx] at hc
        exact Option.noConfusion hc
      · have h0 : (txs.filter (fun r =>
            decide (r.from_address = fa ∧ r.nonce = n ∧ r.hash ≠ h ∧
                    (r.status ≠ "error" ∨ r.status = "new")))).length = 0 := by
          omega
        have hNE := List.length_eq_zero.1 h0
        rw [List.eq_nil_iff_forall_not_mem]
        intro r hr
        obtain ⟨hrt, hrp⟩ := List.mem_filter.1 hr
        simp only [decide_eq_true_eq] at hrp
        obtain ⟨hfa, hn, hst⟩ := hrp
        by_cases hrh : r.hash = h
        · have hmem : r ∈ txs.filter (fun r =>
              decide (r.from_address = fa ∧ r.nonce = n ∧ r.hash = h ∧
                      (r.status ≠ "error" ∨ r.status = "new"))) :=
            List.mem_filter.2 ⟨hrt, by simp [hfa, hn, hrh, hst]⟩
          rw [hHM] at hmem
          exact absurd hmem (List.not_mem_nil r)
        · have hmem : r ∈ txs.filter (fun r =>
              decide (r.from_address = fa ∧ r.nonce = n ∧ r.hash ≠ h ∧
                      (r.status ≠ "error" ∨ r.status = "new"))) :=
            List.mem_filter.2 ⟨hrt, by simp [hfa, hn, hrh, hst]⟩
          rw [hNE] at hmem
          exact absurd hmem (List.not_mem_nil r)
  · rw [if_neg h1] at hc
    by_cases h2 : (txs.filter (fun r =>
        decide (r.from_address = fa ∧ r.nonce = n))).length = 1
    · exfalso
      rw [if_pos h2] at hc
      obtain ⟨x, hx⟩ := List.length_eq_one.1 h2
      rw [hx] at hc
      exact Option.noConfusion hc
    · have h0 : (txs.filter (fun r =>
          decide (r.from_address = fa ∧ r.nonce = n))).length = 0 := by
        omega
      have hP := List.length_eq_zero.1 h0
      rw [List.eq_nil_iff_forall_not_mem]
      intro r hr
      obtain ⟨hrt, hrp⟩ := List.mem_filter.1 hr
      simp only [decide_eq_true_eq] at hrp
      have hmem : r ∈ txs.filter (fun r =>
          decide (r.from_address = fa ∧ r.nonce = n)) :=
        List.mem_filter.2 ⟨hrt, by simp [hrp.1, hrp.2.1]⟩
      rw [hP] at hmem
      exact absurd hmem (List.not_mem_nil r)

/-- Filtering by a pointwise-stronger predicate (on members) yields at
most as many rows. -/
theorem filter_length_mono_mem {α : Type} (p q : α → Bool) :
    ∀ l : List α, (∀ a ∈ l, p a = true → q a = true) →
      (l.filter p).length ≤ (l.filter q).length := by
  intro l
  induction l with
  | nil => intro _; simp
  | cons a l ih =>
    intro h
    by_cases hp : p a = true
    · rw [List.filter_cons_of_pos hp,
          List.filter_cons_of_pos (h a (List.mem_cons_self a l) hp)]
      simpa using ih (fun x hx => h x (List.mem_cons_of_mem a hx))
    · rw [List.filter_cons_of_neg (by simpa using hp)]
      refine le_trans (ih (fun x hx => h x (List.mem_cons_of_mem a hx))) ?_
      cases hq : q a
      · rw [List.filter_cons_of_neg (by simp [hq])]
      · rw [List.filter_cons_of_pos hq]
        simp

/-- Shape of the store and messages produced by the classifier tail:
either nothing changes and nothing is appended, or (with a prior row)
only the final status message for that row is appended, or (without
one) a fresh row is inserted under `next_transaction_id` and the final
status message for it is appended. -/
theorem processTxMain_txs (regs : RegDb) (txdb : TxDb) (tx : NodeTx)
    (db_tx : Option TxRow) (msgs1 : List Message) (a b : String) :
    ((processTxMain regs txdb tx db_tx msgs1 a b).1.transactions =
        txdb.transactions ∧
      (processTxMain regs txdb tx db_tx msgs1 a b).2.1 = msgs1) ∨
    (∃ t, db_tx = some t ∧
      (processTxMain regs txdb tx db_tx msgs1 a b).1.transactions =
        txdb.transactions ∧
      (processTxMain regs txdb tx db_tx msgs1 a b).2.1 =
        msgs1 ++ [Message.update_transaction t.transaction_id
          (if tx.blockNumber.isSome then "confirmed" else "unconfirmed")]) ∨
    (db_tx = none ∧
      (processTxMain regs txdb tx db_tx msgs1 a b).1.transactions =
        txdb.transactions ++
          [{ transaction_id := txdb.next_transaction_id, hash := tx.hash,
             from_address := b, to_address := a, nonce := tx.nonce,
             value := hexStr tx.value, gas := hexStr tx.gas,
             gas_price := hexStr tx.gasPrice, data := tx.input,
             blocknumber := none, status := DEFAULT_TX_STATUS, v := none }] ∧
      (processTxMain regs txdb tx db_tx msgs1 a b).2.1 =
        msgs1 ++ [Message.update_transaction txdb.next_transaction_id
          (if tx.blockNumber.isSome then "confirmed" else "unconfirmed")]) := by
  cases db_tx with
  | some t =>
    simp only [processTxMain, Bool.true_or]
    right; left
    exact ⟨t, by trivial, rfl, rfl⟩
  | none =>
    simp only [processTxMain]
    split <;>
      first
        | (left; exact ⟨rfl, rfl⟩)
        | (right; right; exact ⟨by trivial, rfl, rfl⟩)
        | (split <;>
            first
              | (left; exact ⟨rfl, rfl⟩)
              | (right; right; exact ⟨by trivial, rfl, rfl⟩)
              | (split <;>
                  first
                    | (left; exact ⟨rfl, rfl⟩)
                    | (right; right; exact ⟨by trivial, rfl, rfl⟩)))

/-- The final status is never `error`. -/
theorem final_status_ne_error (c : Bool) :
    (if c = true then "confirmed" else "unconfirmed") ≠ "error" := by
  cases c <;> decide

/-! ## Bounds on the non-error count under message application -/

/-- `nonError` distributes over append. -/
theorem nonError_append (X Y : List TxRow) (fa : String) (n : Nat) :
    nonError (X ++ Y) fa n = nonError X fa n ++ nonError Y fa n := by
  unfold nonError
  exact List.filter_append _ _

/-- A single row contributes at most one non-error row. -/
theorem nonError_single_le (x : TxRow) (fa : String) (n : Nat) :
    (nonError [x] fa n).length ≤ 1 := by
  unfold nonError
  exact le_trans (List.length_filter_le _ _) (by simp)

/-- A row of another `(from, nonce)` pair contributes nothing. -/
theorem nonError_single_nil (x : TxRow) (fa : String) (n : Nat)
    (h : ¬(x.from_address = fa ∧ x.nonce = n)) : nonError [x] fa n = [] := by
  have hd : (decide (x.from_address = fa ∧ x.nonce = n ∧ x.status ≠ "error")) = false := by
    rw [decide_eq_false_iff_not]
    intro hx
    exact h ⟨hx.1, hx.2.1⟩
  simp [nonError, List.filter, hd]

/-- Applying an `error` status update can only shrink the non-error
count. -/
theorem apply_error_le (T : List TxRow) (id : Nat) (fa : String) (n : Nat) :
    (nonError (applyUpdateMsg T (Message.update_transaction id "error")) fa n).length ≤
      (nonError T fa n).length := by
  show (nonError (T.map (fun r =>
    if r.transaction_id = id then { r with status := "error" } else r)) fa n).length ≤ _
  unfold nonError
  refine filter_map_length_le _ _ T ?_
  intro r _ hp
  by_cases hid : r.transaction_id = id
  · rw [if_pos hid] at hp
    simp at hp
  · rw [if_neg hid] at hp
    exact hp

/-- Inserting a fresh row under an unused id and then applying its final
status message preserves the at-most-one invariant, provided its pair
had no non-error rows. -/
theorem apply_insert_bound (T : List TxRow) (N : Nat) (new : TxRow) (s : String)
    (hbound : ∀ r ∈ T, r.transaction_id < N)
    (hnewid : new.transaction_id = N)
    (fa : String) (n : Nat)
    (hle : (nonError T fa n).length ≤ 1)
    (hzero : new.from_address = fa → new.nonce = n → nonError T fa n = []) :
    (nonError (applyUpdates (T ++ [new]) [Message.update_transaction N s])
      fa n).length ≤ 1 := by
  show (nonError ((T ++ [new]).map (fun r =>
    if r.transaction_id = N then { r with status := s } else r)) fa n).length ≤ 1
  rw [List.map_append]
  have hT : T.map (fun r =>
      if r.transaction_id = N then { r with status := s } else r) = T :=
    map_id_of_mem _ T (fun r hr => by
      rw [if_neg (Nat.ne_of_lt (hbound r hr))])
  have hnew : [new].map (fun r =>
      if r.transaction_id = N then { r with status := s } else r) =
      [{ new with status := s }] := by
    simp [hnewid]
  rw [hT, hnew, nonError_append, List.length_append]
  by_cases hpair : new.from_address = fa ∧ new.nonce = n
  · rw [hzero hpair.1 hpair.2]
    simpa using nonError_single_le { new with status := s } fa n
  · rw [nonError_single_nil { new with status := s } fa n
      (fun hx => hpair ⟨hx.1, hx.2⟩)]
    simpa using hle

/-- The overwrite path — error the prior non-error row, insert a fresh
row, and apply its final status — preserves the at-most-one
invariant. -/
theorem apply_error_insert_bound (T : List TxRow) (N : Nat) (t new : TxRow)
    (s : String)
    (hids : (T.map (fun r => r.transaction_id)).Nodup)
    (hbound : ∀ r ∈ T, r.transaction_id < N)
    (ht : t ∈ T) (hterr : t.status ≠ "error")
    (hnewid : new.transaction_id = N)
    (hnf : new.from_address = t.from_address) (hnn : new.nonce = t.nonce)
    (fa : String) (n : Nat)
    (hinv1 : (nonError T fa n).length ≤ 1)
    (hinv2 : (nonError T t.from_address t.nonce).length ≤ 1) :
    (nonError (applyUpdates (T ++ [new])
      [Message.update_transaction t.transaction_id "error",
       Message.update_transaction N s]) fa n).length ≤ 1 := by
  have hidlt : t.transaction_id < N := hbound t ht
  show (nonError ((((T ++ [new]).map (fun r =>
      if r.transaction_id = t.transaction_id then { r with status := "error" }
      else r)).map (fun r =>
      if r.transaction_id = N then { r with status := s } else r))) fa n).length ≤ 1
  rw [List.map_append]
  have hnew1 : [new].map (fun r =>
      if r.transaction_id = t.transaction_id then { r with status := "error" }
      else r) = [new] := by
    simp only [List.map_cons, List.map_nil]
    rw [if_neg (by rw [hnewid]; exact (Nat.ne_of_lt hidlt).symm)]
  rw [hnew1, List.map_append]
  have hT2 : (T.map (fun r =>
      if r.transaction_id = t.transaction_id then { r with status := "error" }
      else r)).map (fun r =>
      if r.transaction_id = N then { r with status := s } else r) =
      T.map (fun r =>
      if r.transaction_id = t.transaction_id then { r with status := "error" }
      else r) := by
    refine map_id_of_mem _ _ (fun a ha => ?_)
    rw [List.mem_map] at ha
    obtain ⟨r, hr, hra⟩ := ha
    have hido : a.transaction_id = r.transaction_id := by
      rw [← hra]
      by_cases h : r.transaction_id = t.transaction_id <;> simp [h]
    rw [if_neg (by rw [hido]; exact Nat.ne_of_lt (hbound r hr))]
  have hnew2 : [new].map (fun r =>
      if r.transaction_id = N then { r with status := s } else r) =
      [{ new with status := s }] := by
    simp [hnewid]
  rw [hT2, hnew2, nonError_append, List.length_append]
  by_cases hpair : new.from_address = fa ∧ new.nonce = n
  · have hfa : t.from_address = fa := by rw [← hnf]; exact hpair.1
    have hnn2 : t.nonce = n := by rw [← hnn]; exact hpair.2
    rw [hfa, hnn2] at hinv2
    have hsing : nonError T fa n = [t] :=
      eq_singleton_of_length_le_one hinv2
        (List.mem_filter.2 ⟨ht, by simp [hfa, hnn2, hterr]⟩)
    have hmain : nonError (T.map (fun r =>
        if r.transaction_id = t.transaction_id then { r with status := "error" }
        else r)) fa n = [] := by
      unfold nonError
      rw [List.filter_map]
      rw [List.map_eq_nil_iff, List.filter_eq_nil_iff]
      intro r hr hp
      simp only [Function.comp, decide_eq_true_eq] at hp
      by_cases hidr : r.transaction_id = t.transaction_id
      · rw [if_pos hidr] at hp
        simp at hp
      · rw [if_neg hidr] at hp
        have hrmem : r ∈ nonError T fa n :=
          List.mem_filter.2 ⟨hr, by rw [decide_eq_true_eq]; exact hp⟩
        rw [hsing] at hrmem
        rcases List.mem_cons.1 hrmem with h | h
        · exact hidr (by rw [h])
        · exact absurd h (List.not_mem_nil r)
    rw [hmain]
    simpa using nonError_single_le { new with status := s } fa n
  · rw [nonError_single_nil { new with status := s } fa n
      (fun hx => hpair ⟨hx.1, hx.2⟩)]
    have hErr := apply_error_le T t.transaction_id fa n
    simpa using le_trans hErr hinv1

/-- Applying the final status message for the correlated row preserves
the at-most-one invariant. -/
theorem apply_status_bound (T : List TxRow) (t : TxRow) (s : String)
    (hids : (T.map (fun r => r.transaction_id)).Nodup)
    (ht : t ∈ T)
    (hsingle : t.status = "error" →
      T.filter (fun r =>
        decide (r.from_address = t.from_address ∧ r.nonce = t.nonce)) = [t])
    (fa : String) (n : Nat)
    (hinv1 : (nonError T fa n).length ≤ 1) :
    (nonError (applyUpdates T [Message.update_transaction t.transaction_id s])
      fa n).length ≤ 1 := by
  show (nonError (T.map (fun r =>
    if r.transaction_id = t.transaction_id then { r with status := s } else r))
    fa n).length ≤ 1
  have hfield : ∀ r : TxRow,
      ((if r.transaction_id = t.transaction_id then { r with status := s }
        else r) : TxRow).from_address = r.from_address ∧
      ((if r.transaction_id = t.transaction_id then { r with status := s }
        else r) : TxRow).nonce = r.nonce := by
    intro r
    by_cases h : r.transaction_id = t.transaction_id <;> simp [h]
  unfold nonError at hinv1 ⊢
  rw [List.filter_map, List.length_map]
  by_cases herr : t.status = "error"
  · have hsing := hsingle herr
    by_cases hfa : fa = t.from_address ∧ n = t.nonce
    · refine le_trans (filter_length_mono_mem _ (fun r =>
        decide (r.from_address = t.from_address ∧ r.nonce = t.nonce)) T ?_) ?_
      · intro r _ hp
        simp only [Function.comp, decide_eq_true_eq] at hp ⊢
        refine ⟨?_, ?_⟩
        · rw [← (hfield r).1, hp.1, hfa.1]
        · rw [← (hfield r).2, hp.2.1, hfa.2]
      · rw [hsing]
        simp
    · refine le_trans (filter_length_mono_mem _ (fun r =>
        decide (r.from_address = fa ∧ r.nonce = n ∧ r.status ≠ "error")) T ?_)
        hinv1
      intro r hr hp
      simp only [Function.comp, decide_eq_true_eq] at hp ⊢
      by_cases hidr : r.transaction_id = t.transaction_id
      · exfalso
        have hrt : r = t := List.inj_on_of_nodup_map hids hr ht hidr
        rw [if_pos hidr] at hp
        subst hrt
        exact hfa ⟨hp.1.symm, hp.2.1.symm⟩
      · rw [if_neg hidr] at hp
        exact hp
  · refine le_trans (filter_length_mono_mem _ (fun r =>
      decide (r.from_address = fa ∧ r.nonce = n ∧ r.status ≠ "error")) T ?_)
      hinv1
    intro r hr hp
    simp only [Function.comp, decide_eq_true_eq] at hp ⊢
    by_cases hidr : r.transaction_id = t.transaction_id
    · have hrt : r = t := List.inj_on_of_nodup_map hids hr ht hidr
      rw [if_pos hidr] at hp
      subst hrt
      exact ⟨hp.1, hp.2.1, herr⟩
    · rw [if_neg hidr] at hp
      exact hp

/-! ## Claim C2: at most one non-error row per (from, nonce) -/

def c2Regs : RegDb := ⟨["0xf"], [], []⟩

def c2TxA : NodeTx :=
  { hash := "0xaaa", fromAddr := "0xf", toAddr := some "0xt", nonce := 7,
    value := 1, gas := 21000, gasPrice := 1, input := "0x",
    blockNumber := none, logs := [] }

def c2TxB : NodeTx := { c2TxA with hash := "0xbbb" }

def c2Db1 : TxDb := (processTx c2Regs ⟨[], [], 1⟩ c2TxA false).1

def c2Db2 : TxDb := (processTx c2Regs c2Db1 c2TxB false).1

/-- Counterexample to C2 as stated: two classifier invocations from an
empty table (a pending transaction, then an overwrite of its nonce)
leave the raw `transactions` table with two non-error rows for
`("0xf", 7)`.  The `error` update for the first row exists only as a
fire-and-forget dispatch message; until the external manager applies
it, the table violates the claimed invariant. -/
theorem claim_C2_counterexample :
    2 ≤ (nonError c2Db2.transactions "0xf" 7).length ∧
    Message.update_transaction 1 "error" ∈
      (processTx c2Regs c2Db1 c2TxB false).2.1 := by decide

/-- Claim C2, amended: the at-most-one-non-error-row invariant is
preserved by each `process_transaction` invocation on the table
obtained by applying the emitted `update_transaction` messages, under
the surrogate-key discipline (distinct stored ids, all below the
insertion counter). -/
theorem claim_C2_amended (regs : RegDb) (txdb : TxDb) (tx : NodeTx)
    (is_reorg : Bool) (fa : String) (n : Nat)
    (hids : (txdb.transactions.map (fun r => r.transaction_id)).Nodup)
    (hbound : ∀ r ∈ txdb.transactions,
      r.transaction_id < txdb.next_transaction_id)
    (hinv1 : (nonError txdb.transactions fa n).length ≤ 1)
    (hinv2 : (nonError txdb.transactions tx.fromAddr tx.nonce).length ≤ 1) :
    (nonError (applyUpdates (processTx regs txdb tx is_reorg).1.transactions
      (processTx regs txdb tx is_reorg).2.1) fa n).length ≤ 1 := by
  unfold processTx
  simp only []
  cases hc : correlateTx txdb.transactions tx.fromAddr tx.nonce tx.hash with
  | none =>
    try rw [hc]
    simp only []
    rcases processTxMain_txs regs txdb tx none [] (tx.toAddr.getD "0x")
        tx.fromAddr with ⟨ht, hm⟩ | ⟨t0, hcontra, _⟩ | ⟨_, ht, hm⟩
    · rw [ht, hm]
      exact hinv1
    · exact Option.noConfusion hcontra
    · rw [ht, hm]
      refine apply_insert_bound txdb.transactions txdb.next_transaction_id _ _
        hbound rfl fa n hinv1 ?_
      intro h1 h2
      have h1a : tx.fromAddr = fa := h1
      have h2a : tx.nonce = n := h2
      rw [← h1a, ← h2a]
      exact correlateTx_none_nonError txdb.transactions tx.fromAddr tx.nonce
        tx.hash hc hinv2
  | some t =>
    try rw [hc]
    simp only []
    obtain ⟨htm, htf, htn⟩ :=
      correlateTx_pair txdb.transactions tx.fromAddr tx.nonce tx.hash t hc
    by_cases how : t.hash ≠ tx.hash ∧ t.status ≠ "error"
    · rw [if_pos how]
      simp only []
      rcases processTxMain_txs regs txdb tx none
          [Message.update_transaction t.transaction_id "error"]
          (tx.toAddr.getD "0x") tx.fromAddr with
        ⟨ht, hm⟩ | ⟨t0, hcontra, _⟩ | ⟨_, ht, hm⟩
      · rw [ht, hm]
        exact le_trans (apply_error_le txdb.transactions t.transaction_id fa n)
          hinv1
      · exact Option.noConfusion hcontra
      · rw [ht, hm]
        refine apply_error_insert_bound txdb.transactions
          txdb.next_transaction_id t _ _ hids hbound htm how.2 rfl ?_ ?_
          fa n hinv1 ?_
        · exact htf.symm
        · exact htn.symm
        · rw [htf, htn]
          exact hinv2
    · rw [if_neg how]
      simp only []
      by_cases hre : is_reorg = true ∧ t.hash = tx.hash ∧ t.status = "confirmed"
      · rw [if_pos hre]
        cases tx.blockNumber with
        | none => exact hinv1
        | some bn =>
          simp only []
          by_cases hbn : some bn ≠ t.blocknumber
          · rw [if_pos hbn]
            refine le_trans (le_of_eq ?_) hinv1
            show (nonError (txdb.transactions.map (fun r =>
              if r.transaction_id = t.transaction_id then
                { r with blocknumber := some bn }
              else r)) fa n).length = (nonError txdb.transactions fa n).length
            unfold nonError
            refine filter_map_length_eq _ _ txdb.transactions ?_
            intro r _
            by_cases h : r.transaction_id = t.transaction_id <;> simp [h]
          · rw [if_neg hbn]
            exact hinv1
      · rw [if_neg hre]
        rcases processTxMain_txs regs txdb tx (some t) []
            (tx.toAddr.getD "0x") tx.fromAddr with
          ⟨ht, hm⟩ | ⟨t0, hsome, ht, hm⟩ | ⟨hcontra, _⟩
        · rw [ht, hm]
          exact hinv1
        · injection hsome with hsome
          subst hsome
          rw [ht, hm]
          refine apply_status_bound txdb.transactions t _ hids htm ?_ fa n hinv1
          intro herr
          have hse := correlateTx_error_single txdb.transactions tx.fromAddr
            tx.nonce tx.hash t hc herr
          simp only [htf, htn]
          exact hse
        · exact Option.noConfusion hcontra

def c2WTxdb : TxDb :=
  ⟨[{ transaction_id := 1, hash := "0xaaa", from_address := "0xf",
      to_address := "0xt", nonce := 7, value := "0x1", gas := "0x5208",
      gas_price := "0x1", data := "0x", blocknumber := none,
      status := "unconfirmed", v := some 27 }], [], 2⟩

/-- Witness for C2 (amended) at the overwrite scenario. -/
theorem claim_C2_witness :
    (nonError (applyUpdates (processTx c2Regs c2WTxdb c2TxB false).1.transactions
      (processTx c2Regs c2WTxdb c2TxB false).2.1) "0xf" 7).length ≤ 1 :=
  claim_C2_amended c2Regs c2WTxdb c2TxB false "0xf" 7 (by decide) (by decide)
    (by decide) (by decide)

/-! ## Lemmas about the block store and the block-check loop -/

/-- The gap query returns a block number strictly below the probe. -/
theorem highestBlockBelow_lt (blocks : List BlockRow) (n g : Nat)
    (h : highestBlockBelow blocks n = some g) : g < n := by
  unfold highestBlockBelow at h
  have haux : ∀ (L : List BlockRow) (acc : Option Nat),
      (∀ m, acc = some m → m < n) → (∀ r ∈ L, r.blocknumber < n) →
      ∀ m, L.foldl (fun acc r =>
        match acc with
        | none => some r.blocknumber
        | some m => if m < r.blocknumber then some r.blocknumber else some m)
        acc = some m → m < n := by
    intro L
    induction L with
    | nil => intro acc hacc _ m hm; exact hacc m hm
    | cons x xs ih =>
      intro acc hacc hmem m hm
      rw [List.foldl_cons] at hm
      refine ih _ ?_ (fun r hr => hmem r (List.mem_cons_of_mem x hr)) m hm
      intro m1 hm1
      cases acc with
      | none =>
        simp only [] at hm1
        injection hm1 with hm1
        rw [← hm1]
        exact hmem x (List.mem_cons_self x xs)
      | some m0 =>
        simp only [] at hm1
        by_cases hlt : m0 < x.blocknumber
        · rw [if_pos hlt] at hm1
          injection hm1 with hm1
          rw [← hm1]
          exact hmem x (List.mem_cons_self x xs)
        · rw [if_neg hlt] at hm1
          injection hm1 with hm1
          rw [← hm1]
          exact hacc m0 rfl
  refine haux _ none (fun m hm => Option.noConfusion hm) ?_ g h
  intro r hr
  have := (List.mem_filter.1 hr).2
  simpa using this

/-- A missing block row means no stored row has that number. -/
theorem findBlock_none (blocks : List BlockRow) (n : Nat)
    (h : findBlock blocks n = none) : ∀ r ∈ blocks, r.blocknumber ≠ n := by
  intro r hr he
  unfold findBlock at h
  rw [List.head?_eq_none_iff] at h
  have : r ∈ blocks.filter (fun r => decide (r.blocknumber = n)) :=
    List.mem_filter.2 ⟨hr, by simp [he]⟩
  rw [h] at this
  exact absurd this (List.not_mem_nil r)

/-- A found block row is a stored row with that number. -/
theorem findBlock_some (blocks : List BlockRow) (n : Nat) (lb : BlockRow)
    (h : findBlock blocks n = some lb) : lb ∈ blocks ∧ lb.blocknumber = n := by
  unfold findBlock at h
  have hm := List.mem_of_mem_head? h
  have := List.mem_filter.1 hm
  exact ⟨this.1, by simpa using this.2⟩

/-- Rows of an upserted table: old rows with another number, or the new
row. -/
theorem mem_upsertBlock {blocks : List BlockRow} {bn ts : Nat} {h p : String}
    {r : BlockRow} (hr : r ∈ upsertBlock blocks bn ts h p) :
    (r ∈ blocks ∧ r.blocknumber ≠ bn) ∨ r = ⟨bn, h, p, ts, false⟩ := by
  unfold upsertBlock at hr
  by_cases hany : blocks.any (fun r => decide (r.blocknumber = bn)) = true
  · rw [if_pos hany] at hr
    rw [List.mem_map] at hr
    obtain ⟨r0, hr0, hre⟩ := hr
    by_cases hb : r0.blocknumber = bn
    · rw [if_pos hb] at hre
      right
      rw [← hre, hb]
    · rw [if_neg hb] at hre
      left
      rw [← hre]
      exact ⟨hr0, hb⟩
  · rw [if_neg hany] at hr
    rcases List.mem_append.1 hr with hr1 | hr1
    · left
      refine ⟨hr1, ?_⟩
      intro he
      apply hany
      rw [List.any_eq_true]
      exact ⟨r, hr1, by simp [he]⟩
    · right
      rcases List.mem_cons.1 hr1 with h1 | h1
      · exact h1
      · exact absurd h1 (List.not_mem_nil r)

/-- Claimed invariant of §3/§8 of the spec, restricted below a bound:
consecutive non-stale rows up to the high-water mark are
parent-linked. -/
def ParentLinkedUpto (blocks : List BlockRow) (last : Nat) : Prop :=
  ∀ r ∈ blocks, ∀ r2 ∈ blocks, r2.blocknumber = r.blocknumber + 1 →
    r2.blocknumber ≤ last → r.stale = false → r2.stale = false →
    r2.parent_hash = r.hash

instance instDecidableParentLinkedUpto (blocks : List BlockRow) (last : Nat) :
    Decidable (ParentLinkedUpto blocks last) := by
  unfold ParentLinkedUpto
  infer_instance

/-- A non-stale row at or below the fork survives stale-marking
unchanged. -/
theorem mem_markStaleAbove_low {blocks : List BlockRow} {f : Nat} {r : BlockRow}
    (hr : r ∈ markStaleAbove blocks f) (hs : r.stale = false) : r ∈ blocks := by
  unfold markStaleAbove at hr
  rw [List.mem_map] at hr
  obtain ⟨r0, hr0, hre⟩ := hr
  by_cases hgt : f < r0.blocknumber
  · rw [if_pos hgt] at hre
    rw [← hre] at hs
    exact absurd hs (by simp)
  · rw [if_neg hgt] at hre
    rw [← hre]
    exact hr0

/-- The iteration tail reports exactly the failed-reorg flag it was
given. -/
theorem blockCheckRest_failedReorg (st : MonState) (node : Node)
    (block : NodeBlock) (msgs0 : List Message) (rf : Bool) (now : Nat) :
    ((blockCheckRest st node block msgs0 rf now).2.2).failedReorg = rf := by
  unfold blockCheckRest
  cases hlr : (if block.logsBloom ≠ ZERO_BLOOM then node.getLogs block.number
      else RpcResult.ok []) with
  | err => rfl
  | ok l => rfl

/-- The iteration tail never decreases the in-memory high-water mark. -/
theorem blockCheckRest_last_ge (st : MonState) (node : Node)
    (block : NodeBlock) (msgs0 : List Message) (rf : Bool) (now : Nat) :
    st.last_block_number ≤
      (blockCheckRest st node block msgs0 rf now).1.last_block_number := by
  unfold blockCheckRest
  cases hlr : (if block.logsBloom ≠ ZERO_BLOOM then node.getLogs block.number
      else RpcResult.ok []) with
  | err => exact le_refl _
  | ok l =>
    simp only []
    by_cases hlt : st.last_block_number < block.number
    · rw [if_pos hlt]
      exact le_of_lt hlt
    · rw [if_neg hlt]

/-- The iteration tail never decreases the stored scalar
`last_blocknumber`. -/
theorem blockCheckRest_lastbn_ge (st : MonState) (node : Node)
    (block : NodeBlock) (msgs0 : List Message) (rf : Bool) (now : Nat) :
    st.last_blocknumber ≤
      (blockCheckRest st node block msgs0 rf now).1.last_blocknumber := by
  unfold blockCheckRest
  cases hlr : (if block.logsBloom ≠ ZERO_BLOOM then node.getLogs block.number
      else RpcResult.ok []) with
  | err => exact le_refl _
  | ok l =>
    simp only []
    by_cases hlt : st.last_blocknumber < block.number
    · rw [if_pos hlt]
      exact le_of_lt hlt
    · rw [if_neg hlt]

/-- The iteration tail preserves the restricted parent-link invariant
when the fetched block is the successor of the high-water mark and
links onto any stored row at the mark. -/
theorem blockCheckRest_inv (st : MonState) (node : Node) (block : NodeBlock)
    (msgs0 : List Message) (rf : Bool) (now : Nat)
    (hbn : block.number = st.last_block_number + 1)
    (hlink : ∀ lb ∈ st.blocks, lb.blocknumber = st.last_block_number →
      lb.hash = block.parentHash)
    (hinv : ParentLinkedUpto st.blocks st.last_block_number) :
    ParentLinkedUpto (blockCheckRest st node block msgs0 rf now).1.blocks
      (blockCheckRest st node block msgs0 rf now).1.last_block_number := by
  unfold blockCheckRest
  cases hlr : (if block.logsBloom ≠ ZERO_BLOOM then node.getLogs block.number
      else RpcResult.ok []) with
  | err => exact hinv
  | ok l =>
    simp only []
    rw [hbn, if_pos (Nat.lt_succ_self _)]
    intro r hr r2 hr2 hsucc hle hs hs2
    rcases mem_upsertBlock hr2 with ⟨hr2b, hr2ne⟩ | hr2new
    · have hle2 : r2.blocknumber ≤ st.last_block_number := by omega
      rcases mem_upsertBlock hr with ⟨hrb, _⟩ | hrnew
      · exact hinv r hrb r2 hr2b hsucc hle2 hs hs2
      · exfalso
        rw [hrnew] at hsucc
        simp only [] at hsucc
        omega
    · rw [hr2new] at hsucc
      simp only [] at hsucc
      have hrbn : r.blocknumber = st.last_block_number := by omega
      rcases mem_upsertBlock hr with ⟨hrb, _⟩ | hrnew
      · rw [hr2new]
        exact (hlink r hrb hrbn).symm
      · exfalso
        rw [hrnew] at hrbn
        simp only [] at hrbn
        omega

/-! ## Claim C3: monotonicity of the high-water mark -/

/-- Whether the iteration rewound the in-memory mark (the gap rollback
or a successful reorg). -/
def IterOutcome.rewound : IterOutcome → Bool
  | IterOutcome.gapRollback _ => true
  | IterOutcome.reorgSuccess _ => true
  | _ => false

def c3St : MonState :=
  { blocks := [⟨3, "0xh3", "0xh2", 100, false⟩], last_blocknumber := 5,
    txdb := ⟨[], [], 1⟩, regs := ⟨[], [], []⟩, filter_registrations := [],
    collectibles := [], last_block_number := 5 }

def c3Node : Node :=
  { getBlock := fun n => if n = 6 then RpcResult.ok (some
      { number := 6, hash := "0xh6", parentHash := "0xh5", timestamp := 1,
        logsBloom := "0x1", transactions := [] }) else RpcResult.ok none,
    bulkBlock := fun _ => none,
    getLogs := fun _ => RpcResult.ok [],
    getTx := fun _ => RpcResult.ok none }

/-- Counterexample to C3 as stated: the gap-detection path of
`block_check` (`monitor.py` lines 192-203) rewinds the in-memory
high-water mark from 5 to 3 — a decrease performed by the block-check
loop itself, not by the reorg handler. -/
theorem claim_C3_counterexample :
    (blockCheckIter c3St c3Node 0).2.2 = IterOutcome.gapRollback 3 ∧
    (blockCheckIter c3St c3Node 0).1.last_block_number <
      c3St.last_block_number := by decide

/-- Claim C3, amended: the in-memory high-water mark never decreases
across a block-check iteration except through the gap rollback or a
reorg rewind; the stored `last_blocknumber` scalar never decreases at
all; and a successful reorg rewinds the in-memory mark to at most its
previous value. -/
theorem claim_C3_amended (st : MonState) (node : Node) (now : Nat) :
    (((blockCheckIter st node now).2.2).rewound = false →
      st.last_block_number ≤
        (blockCheckIter st node now).1.last_block_number) ∧
    st.last_blocknumber ≤ (blockCheckIter st node now).1.last_blocknumber ∧
    (∀ (f : Nat) (st1 : MonState), handleReorg st node = (some f, st1) →
      st1.last_block_number ≤ st.last_block_number) := by
  have hreorg : ∀ (f : Nat) (st1 : MonState),
      handleReorg st node = (some f, st1) →
      st1.last_block_number ≤ st.last_block_number := by
    intro f st1 he
    obtain ⟨h1, h2⟩ := handleReorg_inv st node f st1 he
    rw [h1]
    exact h2
  refine ⟨?_, ?_, hreorg⟩
  · unfold blockCheckIter
    cases hg : node.getBlock (st.last_block_number + 1) with
    | err => exact fun _ => le_refl _
    | ok ob =>
      cases ob with
      | none => exact fun _ => le_refl _
      | some block =>
        simp only []
        cases hlb : findBlock st.blocks st.last_block_number with
        | none =>
          simp only []
          cases hgap : highestBlockBelow st.blocks st.last_block_number with
          | some g =>
            simp only []
            by_cases hg0 : g ≠ 0
            · rw [if_pos hg0]
              intro hr
              simp [IterOutcome.rewound] at hr
            · rw [if_neg hg0]
              exact fun _ => blockCheckRest_last_ge st node block _ false now
          | none =>
            simp only []
            exact fun _ => blockCheckRest_last_ge st node block _ false now
        | some lb =>
          simp only []
          by_cases hmis : lb.hash ≠ block.parentHash
          · rw [if_pos hmis]
            cases hre : handleReorg st node with
            | mk o st1 =>
              cases o with
              | some f =>
                simp only []
                intro hr
                simp [IterOutcome.rewound] at hr
              | none =>
                simp only []
                exact fun _ => blockCheckRest_last_ge st node block _ true now
          · rw [if_neg hmis]
            exact fun _ => blockCheckRest_last_ge st node block _ false now
  · unfold blockCheckIter
    cases hg : node.getBlock (st.last_block_number + 1) with
    | err => exact le_refl _
    | ok ob =>
      cases ob with
      | none => exact le_refl _
      | some block =>
        simp only []
        cases hlb : findBlock st.blocks st.last_block_number with
        | none =>
          simp only []
          cases hgap : highestBlockBelow st.blocks st.last_block_number with
          | some g =>
            simp only []
            by_cases hg0 : g ≠ 0
            · rw [if_pos hg0]
            · rw [if_neg hg0]
              exact blockCheckRest_lastbn_ge st node block _ false now
          | none =>
            simp only []
            exact blockCheckRest_lastbn_ge st node block _ false now
        | some lb =>
          simp only []
          by_cases hmis : lb.hash ≠ block.parentHash
          · rw [if_pos hmis]
            cases hre : handleReorg st node with
            | mk o st1 =>
              cases o with
              | some f =>
                simp only []
                obtain ⟨h1, _⟩ := handleReorg_inv st node f st1 hre
                rw [h1]
              | none =>
                simp only []
                exact blockCheckRest_lastbn_ge st node block _ true now
          · rw [if_neg hmis]
            exact blockCheckRest_lastbn_ge st node block _ false now

def c3WSt : MonState :=
  { blocks := [⟨5, "0xh5", "0xh4", 100, false⟩], last_blocknumber := 5,
    txdb := ⟨[], [], 1⟩, regs := ⟨[], [], []⟩, filter_registrations := [],
    collectibles := [], last_block_number := 5 }

def c3WNode : Node :=
  { getBlock := fun n => if n = 6 then RpcResult.ok (some
      { number := 6, hash := "0xh6", parentHash := "0xh5", timestamp := 1,
        logsBloom := "0x1", transactions := [] }) else RpcResult.ok none,
    bulkBlock := fun _ => none,
    getLogs := fun _ => RpcResult.ok [],
    getTx := fun _ => RpcResult.ok none }

/-- Witness for C3 (amended) at a normal ingestion step. -/
theorem claim_C3_witness :
    c3WSt.last_block_number ≤
      (blockCheckIter c3WSt c3WNode 0).1.last_block_number ∧
    c3WSt.last_blocknumber ≤
      (blockCheckIter c3WSt c3WNode 0).1.last_blocknumber :=
  ⟨(claim_C3_amended c3WSt c3WNode 0).1 (by decide),
   (claim_C3_amended c3WSt c3WNode 0).2.1⟩

/-! ## Claim C1: the parent-hash chain invariant -/

def c1St : MonState :=
  { blocks := [⟨1, "0xaa", "0x00", 100, false⟩], last_blocknumber := 1,
    txdb := ⟨[], [], 1⟩, regs := ⟨[], [], []⟩, filter_registrations := [],
    collectibles := [], last_block_number := 1 }

def c1Node : Node :=
  { getBlock := fun n => if n = 2 then RpcResult.ok (some
      { number := 2, hash := "0xcc", parentHash := "0xbb", timestamp := 1,
        logsBloom := "0x1", transactions := [] }) else RpcResult.ok none,
    bulkBlock := fun n =>
      if n = 1 then
        some { number := 1, hash := "0xdd", parentHash := "0x00",
               timestamp := 1, logsBloom := "0x1", transactions := [] }
      else if n = 0 then
        some { number := 0, hash := "0xee", parentHash := "0x00",
               timestamp := 1, logsBloom := "0x1", transactions := [] }
      else none,
    getLogs := fun _ => RpcResult.ok [],
    getTx := fun _ => RpcResult.ok none }

/-- Counterexample to C1 as stated: a parent-hash mismatch whose reorg
search fails (fork deeper than the store) falls through and the
iteration completes, ingesting block 2 with a parent hash that does not
match the stored non-stale block 1 — the invariant held before the
iteration and is broken after it. -/
theorem claim_C1_counterexample :
    ParentLinkedUpto c1St.blocks c1St.last_block_number ∧
    (blockCheckIter c1St c1Node 0).2.2 = IterOutcome.completed true ∧
    ¬ ParentLinkedUpto (blockCheckIter c1St c1Node 0).1.blocks
        (blockCheckIter c1St c1Node 0).1.last_block_number := by decide

/-- Claim C1, amended: after every completed block-check iteration that
did not continue past a failed reorg search, consecutive non-stale rows
up to the high-water mark are parent-linked — given that they were
before the iteration, that stored block numbers are unique, and that
the node returns block `last + 1` with that number. -/
theorem claim_C1_amended (st : MonState) (node : Node) (now : Nat)
    (hnodup : (st.blocks.map (fun r => r.blocknumber)).Nodup)
    (hnum : ∀ b, node.getBlock (st.last_block_number + 1) =
      RpcResult.ok (some b) → b.number = st.last_block_number + 1)
    (hfail : ((blockCheckIter st node now).2.2).failedReorg = false)
    (hinv : ParentLinkedUpto st.blocks st.last_block_number) :
    ParentLinkedUpto (blockCheckIter st node now).1.blocks
      (blockCheckIter st node now).1.last_block_number := by
  unfold blockCheckIter at hfail ⊢
  cases hg : node.getBlock (st.last_block_number + 1) with
  | err => exact hinv
  | ok ob =>
    rw [hg] at hfail
    cases ob with
    | none => exact hinv
    | some block =>
      have hbn := hnum block hg
      simp only [] at hfail ⊢
      cases hlb : findBlock st.blocks st.last_block_number with
      | none =>
        rw [hlb] at hfail
        simp only [] at hfail ⊢
        cases hgap : highestBlockBelow st.blocks st.last_block_number with
        | some g =>
          rw [hgap] at hfail
          simp only [] at hfail ⊢
          by_cases hg0 : g ≠ 0
          · rw [if_pos hg0]
            have hlt := highestBlockBelow_lt st.blocks st.last_block_number g hgap
            intro r hr r2 hr2 hsucc hle hs hs2
            exact hinv r hr r2 hr2 hsucc (le_trans hle (le_of_lt hlt)) hs hs2
          · rw [if_neg hg0]
            refine blockCheckRest_inv st node block _ false now hbn ?_ hinv
            intro lb hm he
            exact absurd he (findBlock_none st.blocks st.last_block_number hlb lb hm)
        | none =>
          refine blockCheckRest_inv st node block _ false now hbn ?_ hinv
          intro lb hm he
          exact absurd he (findBlock_none st.blocks st.last_block_number hlb lb hm)
      | some lb =>
        rw [hlb] at hfail
        simp only [] at hfail ⊢
        obtain ⟨hlbm, hlbn⟩ := findBlock_some st.blocks st.last_block_number lb hlb
        by_cases hmis : lb.hash ≠ block.parentHash
        · rw [if_pos hmis] at hfail ⊢
          cases hre : handleReorg st node with
          | mk o st1 =>
            rw [hre] at hfail
            cases o with
            | some f =>
              simp only []
              obtain ⟨h1, h2⟩ := handleReorg_inv st node f st1 hre
              rw [h1]
              intro r hr r2 hr2 hsucc hle hs hs2
              have hr' : r ∈ st.blocks := mem_markStaleAbove_low hr hs
              have hr2' : r2 ∈ st.blocks := mem_markStaleAbove_low hr2 hs2
              exact hinv r hr' r2 hr2' hsucc (le_trans hle h2) hs hs2
            | none =>
              exfalso
              simp only [] at hfail
              rw [blockCheckRest_failedReorg] at hfail
              exact Bool.noConfusion hfail
        · rw [if_neg hmis]
          refine blockCheckRest_inv st node block _ false now hbn ?_ hinv
          intro lb0 hm he
          have heq : lb0 = lb :=
            List.inj_on_of_nodup_map hnodup hm hlbm (by rw [he, hlbn])
          rw [heq]
          exact Decidable.not_not.1 hmis

def c1WSt : MonState :=
  { blocks := [⟨1, "0xaa", "0x00", 100, false⟩], last_blocknumber := 1,
    txdb := ⟨[], [], 1⟩, regs := ⟨[], [], []⟩, filter_registrations := [],
    collectibles := [], last_block_number := 1 }

def c1WBlock : NodeBlock :=
  { number := 2, hash := "0xbb", parentHash := "0xaa", timestamp := 1,
    logsBloom := "0x1", transactions := [] }

def c1WNode : Node :=
  { getBlock := fun n => if n = 2 then RpcResult.ok (some c1WBlock)
      else RpcResult.ok none,
    bulkBlock := fun _ => none,
    getLogs := fun _ => RpcResult.ok [],
    getTx := fun _ => RpcResult.ok none }

/-- Witness for C1 (amended) at a normal ingestion step. -/
theorem claim_C1_witness :
    ParentLinkedUpto (blockCheckIter c1WSt c1WNode 0).1.blocks
      (blockCheckIter c1WSt c1WNode 0).1.last_block_number :=
  claim_C1_amended c1WSt c1WNode 0 (by decide)
    (fun b hb => by
      have h1 : RpcResult.ok (some c1WBlock) =
          c1WNode.getBlock (c1WSt.last_block_number + 1) := rfl
      rw [hb] at h1
      have h2 := Option.some.inj (RpcResult.ok.inj h1)
      rw [← h2]
      rfl)
    (by decide) (by decide)

end ToshiEth
